import Mathlib

/-!
Verification of the gor traffic-replication engine against its specification.

Shallow embedding of the core components of the `gor` repository:
the TCP output sink (`output_tcp` part of `settings.go`), the replay HTTP
client (`http_client.go`), the file sink index functions, the buffer-size
parser (`settings.go`), the emitter copy loop (`emitter.go`), and a model of
the packet reassembler (whose implementation is exercised by
`raw_socket_listener/listener_test.go`).

Bytes are modelled as `List Nat` (each element an octet value); Go strings
are modelled as `List Char` where character-level operations matter.
-/

/-- Byte strings: each element is one octet. -/
abbrev Bytes := List Nat

/-- Bytes of an ASCII string literal. -/
def strBytes (s : String) : Bytes := s.toList.map Char.toNat

/-- `hasPrefixB l p` : `p` is a prefix of `l` (byte-wise). -/
def hasPrefixB : Bytes → Bytes → Bool
  | _, [] => true
  | [], _ :: _ => false
  | a :: as, b :: bs => a = b && hasPrefixB as bs

/-- `hasSuffixB l s` : `s` is a suffix of `l`, mirroring Go `bytes.HasSuffix`. -/
def hasSuffixB (l s : Bytes) : Bool :=
  if s.length ≤ l.length then decide (l.drop (l.length - s.length) = s) else false

/-- Index of the first occurrence of the pattern `pat` inside a byte list,
mirroring Go `bytes.Index` (`none` for Go's `-1`). -/
def findInfixIdx (pat : Bytes) : Bytes → Option Nat
  | [] => if pat.isEmpty then some 0 else none
  | x :: xs =>
    if hasPrefixB (x :: xs) pat then some 0
    else (findInfixIdx pat xs).map (· + 1)

/-- Delete the first occurrence of `pat` from `l` (identity when absent). -/
def deleteFirstInfix (pat l : Bytes) : Bytes :=
  match findInfixIdx pat l with
  | some i => l.take i ++ l.drop (i + pat.length)
  | none => l

/-- ASCII lower-casing of one byte. -/
def asciiLower (b : Nat) : Nat := if 65 ≤ b ∧ b ≤ 90 then b + 32 else b

/-- ASCII decimal digit test on a byte. -/
def isDigitB (b : Nat) : Bool := 48 ≤ b && b ≤ 57

/-- Numeric value of a digit byte string (used where Go does
`strconv.Atoi` and discards the error, yielding 0 on failure). -/
def atoiLoose (bs : Bytes) : Nat :=
  if bs ≠ [] ∧ bs.all isDigitB then bs.foldl (fun acc b => acc * 10 + (b - 48)) 0 else 0

/-- The `\r\n\r\n` separator between an HTTP head and body (`proto.EmptyLine`). -/
def emptyLineB : Bytes := strBytes "\r\n\r\n"

/-- Modelled from the spec: `proto` package helper `Header(payload, name)`
("read header ... by header scanning, not parsing; case-insensitive header
names", operating on "a byte buffer containing an HTTP/1.1 message in wire
form").  The scan covers the message head (up to the first empty line) and
returns the value bytes after `name:`, spaces skipped, up to `\r`;
`[]` models Go's nil result for an absent header. -/
def headerValue (buf name : Bytes) : Bytes :=
  let hd := match findInfixIdx emptyLineB buf with
            | some i => buf.take (i + 2)
            | none => buf
  match findInfixIdx ([10] ++ name.map asciiLower ++ [58]) (hd.map asciiLower) with
  | none => []
  | some i =>
    ((hd.drop (i + name.length + 2)).dropWhile (· = 32)).takeWhile (· ≠ 13)

/-- Modelled from the spec: `proto.Status` — the three status bytes of a
response status line (positions 9..11 of the wire form). -/
def statusBytes (buf : Bytes) : Bytes := (buf.drop 9).take 3

/-- Status code as a number, 0 when the three bytes are not digits
(mirroring `status, _ := strconv.Atoi(string(proto.Status(...)))`). -/
def statusNum (buf : Bytes) : Nat := atoiLoose (statusBytes buf)

/-- Modelled from the spec: `proto.Body` — the bytes after the first empty
line of the message (`[]` when the head is not finished). -/
def bodyOf (buf : Bytes) : Bytes :=
  match findInfixIdx emptyLineB buf with
  | some i => buf.drop (i + 4)
  | none => []

/-! ## Payload envelope helpers

The envelope helpers (`payloadMeta`, `isOriginPayload`, payload kinds) live
in a file that is not part of this tree; they are modelled from the spec
(§3 "Payload", §4.1 "classify(bytes) → kind inspects the first token only",
§6 "Envelope line: `kind uuid nanos extra\n`;
`kind ∈ {1=request, 2=response, 3=replayed-response}`"). -/

/-- Split a byte list on a separator byte (like `bytes.Split` for one byte). -/
def splitOnByte (sep : Nat) : Bytes → List Bytes
  | [] => [[]]
  | b :: rest =>
    let r := splitOnByte sep rest
    if b = sep then [] :: r
    else match r with
         | [] => [[b]]
         | f :: fs => (b :: f) :: fs

/-- Modelled from the spec: `payloadMeta` — the space-separated fields of
the envelope line (everything before the first `\n`). -/
def payloadMeta (data : Bytes) : List Bytes :=
  splitOnByte 32 (data.takeWhile (· ≠ 10))

/-- The UUID field of a payload: second field of the envelope line. -/
def payloadUUID (data : Bytes) : Bytes := (payloadMeta data).getD 1 []

/-- Modelled from the spec: payload kind is the first token of the envelope;
`1` = request, `2` = response, `3` = replayed response. -/
def payloadKind (data : Bytes) : Bytes := (payloadMeta data).getD 0 []

/-- Modelled from the spec: `isOriginPayload` — the payload is an origin
kind (captured request or captured response). -/
def isOriginPayload (data : Bytes) : Bool :=
  payloadKind data = strBytes "1" || payloadKind data = strBytes "2"

/-- Modelled from the spec: `isRequestPayload` — kind token is `1`. -/
def isRequestPayload (data : Bytes) : Bool := payloadKind data = strBytes "1"

/-! ## TCP output sink (`TCPOutput` in the tree)

`getBufferIndex`, `Write` and the body of `worker` are embedded
directly from the source. -/

/-- 32-bit FNV-1a hash (`hash/fnv`, `fnv.New32a`). -/
def fnv32a (bs : Bytes) : Nat :=
  bs.foldl (fun h b => ((h ^^^ b) * 16777619) % 4294967296) 2166136261

/-- Embeds `TCPOutput.getBufferIndex`: 0 when not sticky, otherwise the
FNV32a hash of the payload's UUID field modulo 10
(`int(hasher.Sum32()) % 10`; `Sum32` fits in Go's `int`, so `%` is the
mathematical remainder). -/
def getBufferIndex (sticky : Bool) (data : Bytes) : Nat :=
  if !sticky then 0
  else fnv32a (payloadUUID data) % 10

/-- Result of `TCPOutput.Write`: the Go return values plus the channel
enqueue effect (`none` when nothing was enqueued). -/
structure TCPWriteResult where
  n : Nat
  errNil : Bool
  enqueued : Option (Nat × Bytes)
  deriving DecidableEq, Repr

/-- Embeds `TCPOutput.Write`: non-origin payloads return `(len(data), nil)`
without touching any buffer; origin payloads are copied and enqueued into
the channel selected by `getBufferIndex`. -/
def tcpOutputWrite (sticky : Bool) (data : Bytes) : TCPWriteResult :=
  if !isOriginPayload data then ⟨data.length, true, none⟩
  else ⟨data.length, true, some (getBufferIndex sticky data, data)⟩

/-- Outcome of one `TCPOutput.worker` loop iteration whose payload write to
the connection failed.  The channel is a FIFO queue: the worker receives
from the head, and `o.buf[bufferIndex] <- data` appends at the tail. -/
structure WorkerErrorResult where
  queue : List Bytes
  spawnedReplacement : Bool
  exited : Bool
  deriving DecidableEq, Repr

/-- Embeds the write-error path of `TCPOutput.worker`
(`o.buf[bufferIndex] <- data; go o.worker(bufferIndex); break`): the
in-flight payload goes back into the channel (at the tail, since a Go
channel is a FIFO), a replacement worker is spawned, and the worker exits.
With an empty channel the receive blocks and no iteration happens. -/
def workerOnWriteError (queue : List Bytes) : WorkerErrorResult :=
  match queue with
  | [] => ⟨[], false, false⟩
  | d :: rest => ⟨rest ++ [d], true, true⟩

/-! ## Replay HTTP client (`http_client.go`)

`errorPayload`, `Connect`'s proxy-scheme check, and the read loop of
`send` are embedded from the source.  Socket interaction is abstracted as
a list of read events; the `proto` helpers used by the loop are the
spec-modelled ones above. -/

/-- The fixed synthetic response template (`errorPayloadTemplate`). -/
def errorPayloadTemplate : Bytes :=
  strBytes "HTTP/1.1 202 Accepted\r\nDate: Mon, 17 Aug 2015 14:10:11 GMT\r\nContent-Length: 0\r\nContent-Type: text/plain; charset=utf-8\r\n\r\n"

/-- Overwrite bytes of `l` starting at position `i` with `src`, never
growing `l` (the semantics of Go `copy(l[i:j], src)` with `j-i ≥ len(src)`
capped at `l`'s end). -/
def copyAt (l : Bytes) (i : Nat) (src : Bytes) : Bytes :=
  l.take i ++ (src.take (l.length - i)) ++ l.drop (i + src.length)

/-- Embeds `errorPayload`: the template with the current date copied at
bytes 29..57 and the error code at bytes 9..11.  `now` stands for the
bytes of `time.Now().Format(time.RFC1123)` (at most 29 are used). -/
def errorPayload (now code : Bytes) : Bytes :=
  copyAt (copyAt errorPayloadTemplate 29 (now.take 29)) 9 code

/-- The five error-code constants of `http_client.go`. -/
def HTTP_UNKNOWN_ERROR : Bytes := strBytes "520"

/-- `HTTP_CONNECTION_ERROR`. -/
def HTTP_CONNECTION_ERROR : Bytes := strBytes "521"

/-- `HTTP_CONNECTION_TIMEOUT` (defined in the source, see the theorems for
whether it is ever produced). -/
def HTTP_CONNECTION_TIMEOUT : Bytes := strBytes "522"

/-- `HTTP_UNREACHABLE` (defined in the source, see the theorems for
whether it is ever produced). -/
def HTTP_UNREACHABLE : Bytes := strBytes "523"

/-- `HTTP_TIMEOUT`. -/
def HTTP_TIMEOUT : Bytes := strBytes "524"

/-- One socket read event observed by the `send` read loop: data returned
by `conn.Read`, a read-deadline expiry, or end of stream. -/
inductive ReadEv where
  | data (bs : Bytes)
  | rtimeout
  | reof
  deriving DecidableEq, Repr

/-- Mutable state of the `send` read loop (`respBuf[:readBytes]`, the
`chunked` flag, `contentLength` — `none` models Go's `-1` — and
`currentContentLength`). -/
structure SendLoopState where
  buf : Bytes
  readBytes : Nat
  chunked : Bool
  contentLength : Option Nat
  currentContentLength : Nat
  deriving DecidableEq, Repr

/-- Loop exit: the final state plus whether `err` was non-nil at the break
(after the `io.EOF` clearing), or fuel exhaustion (never reached by the
runs considered in the theorems). -/
inductive LoopExit where
  | done (st : SendLoopState) (errAtExit : Bool)
  | fuelOut (st : SendLoopState)
  deriving DecidableEq, Repr

/-- `readChunkSize` from the source. -/
def readChunkSize : Nat := 64 * 1024

/-- `maxResponseSize` from the source. -/
def maxResponseSize : Nat := 1073741824

/-- `chunkedSuffix` (`"0\r\n\r\n"`). -/
def chunkedSuffix : Bytes := strBytes "0\r\n\r\n"

/-- Embeds the `for` read loop of `HTTPClient.send` (the framing parser).
`cap` is `len(c.respBuf)`.  Each iteration consumes one read event; an
exhausted event list behaves as reads that time out (`conn.Read` after the
deadline).  Faithful to the source: the capacity branch reads into a
scratch chunk without extending `respBuf`; `1xx` heads are deleted from
the front of the buffer and the loop continues; `204`/`304` set the length
to 0 and break; chunked completion is `HasSuffix(buf, "0\r\n\r\n")`;
a `Content-Length` overrun disconnects. -/
def sendLoop (cap : Nat) : Nat → SendLoopState → List ReadEv → LoopExit
  | 0, st, _ => .fuelOut st
  | fuel + 1, st, evs =>
    let ev := evs.headD .rtimeout
    let evs' := evs.tail
    if st.readBytes < cap then
      -- n, err = c.conn.Read(c.respBuf[readBytes:])
      let bs := match ev with
                | .data bs => bs.take (cap - st.readBytes)
                | _ => []
      let err : Bool := match ev with
                        | .data _ => false
                        | _ => true
      let isEOF : Bool := match ev with
                          | .reof => true
                          | _ => false
      let n := bs.length
      let buf := st.buf ++ bs
      let readBytes := st.readBytes + n
      -- end of one iteration: chunked / content-length completion checks,
      -- then the error break (io.EOF cleared to nil), then the size cap
      let cont : SendLoopState → LoopExit := fun st' =>
        if st'.chunked ∧ hasSuffixB st'.buf chunkedSuffix then .done st' err
        else if h : st'.contentLength.isSome ∧ ¬st'.chunked then
          let cl := st'.contentLength.get h.1
          if cl < st'.currentContentLength then .done st' err   -- disconnect, wrong length
          else if st'.currentContentLength = cl then .done st' err
          else if err then .done st' (!isEOF)
          else if maxResponseSize ≤ st'.readBytes then .done st' false
          else sendLoop cap fuel st' evs'
        else if err then .done st' (!isEOF)
        else if maxResponseSize ≤ st'.readBytes then .done st' false
        else sendLoop cap fuel st' evs'
      if st.chunked ∨ st.contentLength.isSome then
        cont { st with buf := buf, readBytes := readBytes,
                       currentContentLength := st.currentContentLength + n }
      else
        match findInfixIdx emptyLineB buf with
        | none => cont { st with buf := buf, readBytes := readBytes }
        | some firstEmptyLine =>
          if headerValue buf (strBytes "Transfer-Encoding") = strBytes "chunked" then
            cont { st with buf := buf, readBytes := readBytes, chunked := true,
                           currentContentLength :=
                             st.currentContentLength + (bodyOf buf).length }
          else
            let status := statusNum buf
            if 100 ≤ status ∧ status < 200 then
              -- soak up the 1xx head: delete it, reset the deadline, continue
              let deleteLen := firstEmptyLine + emptyLineB.length
              sendLoop cap fuel
                { st with buf := buf.drop deleteLen, readBytes := readBytes - deleteLen }
                evs'
            else if status = 204 ∨ status = 304 then
              .done { st with buf := buf, readBytes := readBytes,
                              contentLength := some 0 } err
            else
              let l := headerValue buf (strBytes "Content-Length")
              let contentLength := if l ≠ [] then some (atoiLoose l) else st.contentLength
              cont { st with buf := buf, readBytes := readBytes,
                             contentLength := contentLength,
                             currentContentLength :=
                               st.currentContentLength + (bodyOf buf).length }
    else
      -- capacity exhausted: n, err = c.conn.Read(currentChunk); respBuf unchanged
      let bs := match ev with
                | .data bs => bs.take readChunkSize
                | _ => []
      let err : Bool := match ev with
                        | .data _ => false
                        | _ => true
      let isEOF : Bool := match ev with
                          | .reof => true
                          | _ => false
      let n := bs.length
      let st' : SendLoopState :=
        { st with readBytes := st.readBytes + n,
                  currentContentLength := st.currentContentLength + n }
      if st'.chunked then
        if hasSuffixB bs chunkedSuffix then .done st' err
        else if isEOF then .done st' true
        else if err then .done st' true
        else if maxResponseSize ≤ st'.readBytes then .done st' false
        else sendLoop cap fuel st' evs'
      else
        match st'.contentLength with
        | some cl =>
          if cl < st'.currentContentLength then .done st' err
          else if st'.currentContentLength = cl then .done st' err
          else if isEOF then .done st' true
          else if err then .done st' true
          else if maxResponseSize ≤ st'.readBytes then .done st' false
          else sendLoop cap fuel st' evs'
        | none => .done st' err

/-- What a call of `HTTPClient.Send` / `HTTPClient.send` produces.
`failed` carries the synthetic `errorPayload` buffer; `recovered` models
the deferred `recover()` in `Send` swallowing a panic, after which `Send`
returns a nil response and nil error; `redirected` marks the 3xx path that
re-enters `Send`. -/
inductive SendResult where
  | ok (resp : Bytes)
  | failed (resp : Bytes)
  | redirected (resp : Bytes)
  | recovered
  | fuelOut
  deriving DecidableEq, Repr

/-- Embeds `HTTPClient.send` after its read loop: the read-timeout and
unknown-error synthetic responses, the clamp of `readBytes` to the buffer,
and the redirect test on `payload[9:12]` (whose slicing panics — and is
recovered by `Send` — when the payload is shorter than 12 bytes). -/
def sendPostLoop (cap followRedirects redirectsCount : Nat) (now : Bytes)
    (exit : LoopExit) : SendResult :=
  match exit with
  | .fuelOut _ => .fuelOut
  | .done st err =>
    if err ∧ st.readBytes = 0 then .failed (errorPayload now HTTP_TIMEOUT)
    else if st.readBytes < 4 ∨ st.buf.take 4 ≠ strBytes "HTTP" then
      .failed (errorPayload now HTTP_UNKNOWN_ERROR)
    else
      let payload := st.buf.take (min st.readBytes cap)
      if 0 < followRedirects ∧ redirectsCount < followRedirects then
        if payload.length < 12 then .recovered
        else if payload.getD 9 0 = 51 then .redirected payload
        else .ok payload
      else .ok payload

/-- Why a TCP dial failed (the model keeps the cause so that theorems can
talk about connect timeouts and unreachable origins separately). -/
inductive ConnFail where
  | timeout
  | refused
  | unreachable
  | other
  deriving DecidableEq, Repr

/-- Outcome of `HTTPClient.Connect`. -/
inductive ConnectOutcome where
  | panicked
  | failed (cause : ConnFail)
  | ok
  deriving DecidableEq, Repr

/-- Environment of one `Send` call: connection liveness, the proxy scheme
resolved from the environment at construction (`none` when no proxy), the
dial result, whether the request write fails, and the socket read events. -/
structure SendEnv where
  connAlive : Bool
  proxyScheme : Option String
  dialFail : Option ConnFail
  writeFail : Bool
  reads : List ReadEv
  now : Bytes
  deriving Repr

/-- Embeds `HTTPClient.Connect` up to its first failure point: a configured
proxy with a scheme other than `"http"` panics
(`panic("Unsupported HTTP Proxy method")`) before any dial; otherwise the
dial result decides. -/
def connectModel (env : SendEnv) : ConnectOutcome :=
  match env.proxyScheme with
  | some s => if s ≠ "http" then .panicked
              else match env.dialFail with
                   | some c => .failed c
                   | none => .ok
  | none => match env.dialFail with
            | some c => .failed c
            | none => .ok

/-- Fuel that always suffices for `sendLoop`: one iteration per read event,
plus one deletion per buffered byte (a `1xx` deletion removes at least four
bytes), plus a final breaking iteration. -/
def sendLoopFuel (env : SendEnv) : Nat :=
  env.reads.length + (env.reads.map (fun ev => match ev with
    | .data bs => bs.length
    | _ => 0)).sum + 2

/-- Embeds `HTTPClient.send` (the lower-level method): a write error
returns `errorPayload(HTTP_TIMEOUT)` and disconnects; otherwise the read
loop runs and `sendPostLoop` finishes.  `cap` is the response-buffer size. -/
def sendInner (cap followRedirects redirectsCount : Nat) (env : SendEnv) : SendResult :=
  if env.writeFail then .failed (errorPayload env.now HTTP_TIMEOUT)
  else
    sendPostLoop cap followRedirects redirectsCount env.now
      (sendLoop cap (sendLoopFuel env) ⟨[], 0, false, none, 0⟩ env.reads)

/-- Embeds `HTTPClient.Send` (minus the header rewriting, which does not
affect the response): reconnect when the socket is dead — a connect panic
is caught by the deferred `recover` and `Send` returns nil, a connect
error returns `errorPayload(HTTP_CONNECTION_ERROR)`; otherwise `send`
produces the result. -/
def sendModel (cap followRedirects redirectsCount : Nat) (env : SendEnv) : SendResult :=
  if env.connAlive then sendInner cap followRedirects redirectsCount env
  else
    match connectModel env with
    | .panicked => .recovered
    | .failed _ => .failed (errorPayload env.now HTTP_CONNECTION_ERROR)
    | .ok => sendInner cap followRedirects redirectsCount env

/-! ## Helper lemmas about the synthetic error payload -/

lemma copyAt_length (l : Bytes) (i : Nat) (src : Bytes)
    (h : i + src.length ≤ l.length) : (copyAt l i src).length = l.length := by
  simp only [copyAt, List.length_append, List.length_take, List.length_drop]
  omega

lemma errorPayloadTemplate_length : errorPayloadTemplate.length = 122 := by decide

lemma errorPayload_length (now code : Bytes) (h : code.length = 3) :
    (errorPayload now code).length = 122 := by
  have h1 : (copyAt errorPayloadTemplate 29 (now.take 29)).length = 122 := by
    rw [copyAt_length]
    · exact errorPayloadTemplate_length
    · have : (now.take 29).length ≤ 29 := by
        simp [List.length_take]
      rw [errorPayloadTemplate_length]; omega
  rw [errorPayload, copyAt_length] <;> omega

lemma statusBytes_copyAt9 (l : Bytes) (code : Bytes)
    (hc : code.length = 3) (hl : 12 ≤ l.length) :
    statusBytes (copyAt l 9 code) = code := by
  have h9 : (l.take 9).length = 9 := by
    rw [List.length_take]; omega
  have hco : code.take (l.length - 9) = code := List.take_of_length_le (by omega)
  have hsplit : copyAt l 9 code = l.take 9 ++ (code ++ l.drop (9 + code.length)) := by
    rw [copyAt, hco, List.append_assoc]
  rw [hsplit, statusBytes, List.drop_left' h9, List.take_left' hc]

lemma statusBytes_errorPayload (now code : Bytes) (h : code.length = 3) :
    statusBytes (errorPayload now code) = code := by
  apply statusBytes_copyAt9 _ _ h
  have h1 : (copyAt errorPayloadTemplate 29 (now.take 29)).length = 122 := by
    rw [copyAt_length]
    · exact errorPayloadTemplate_length
    · have : (now.take 29).length ≤ 29 := by simp [List.length_take]
      rw [errorPayloadTemplate_length]; omega
  omega

lemma sendPostLoop_failed (cap fr rc : Nat) (now : Bytes) (ex : LoopExit) (p : Bytes)
    (h : sendPostLoop cap fr rc now ex = .failed p) :
    p = errorPayload now HTTP_TIMEOUT ∨ p = errorPayload now HTTP_UNKNOWN_ERROR := by
  cases ex with
  | fuelOut st => simp [sendPostLoop] at h
  | done st e =>
    simp only [sendPostLoop] at h
    split_ifs at h <;> simp_all

lemma sendInner_failed (cap fr rc : Nat) (env : SendEnv) (p : Bytes)
    (h : sendInner cap fr rc env = .failed p) :
    p = errorPayload env.now HTTP_TIMEOUT ∨
    p = errorPayload env.now HTTP_UNKNOWN_ERROR := by
  simp only [sendInner] at h
  split_ifs at h with h1
  · exact Or.inl (by simpa using h.symm)
  · exact sendPostLoop_failed _ _ _ _ _ _ h

lemma sendModel_failed (cap fr rc : Nat) (env : SendEnv) (p : Bytes)
    (h : sendModel cap fr rc env = .failed p) :
    p = errorPayload env.now HTTP_CONNECTION_ERROR ∨
    p = errorPayload env.now HTTP_TIMEOUT ∨
    p = errorPayload env.now HTTP_UNKNOWN_ERROR := by
  simp only [sendModel] at h
  split_ifs at h with h1
  · exact Or.inr (sendInner_failed _ _ _ _ _ h)
  · cases hc : connectModel env with
    | panicked => rw [hc] at h; simp at h
    | failed c => rw [hc] at h; exact Or.inl (by simpa using h.symm)
    | ok => rw [hc] at h; exact Or.inr (sendInner_failed _ _ _ _ _ h)

/-- C2, counterexample: a connect timeout makes `Send` return the synthetic
response with code `521` (`HTTP_CONNECTION_ERROR`) — not `522`
(`HTTP_CONNECTION_TIMEOUT`), which the claim assigns to connect timeouts.
`523` is likewise never produced for unreachable origins. -/
theorem send_connect_timeout_yields_521 :
    sendModel 1000 0 0 ⟨false, none, some .timeout, false, [], strBytes "now"⟩ =
      .failed (errorPayload (strBytes "now") HTTP_CONNECTION_ERROR) ∧
    sendModel 1000 0 0 ⟨false, none, some .unreachable, false, [], strBytes "now"⟩ =
      .failed (errorPayload (strBytes "now") HTTP_CONNECTION_ERROR) ∧
    statusBytes (errorPayload (strBytes "now") HTTP_CONNECTION_ERROR) = strBytes "521" ∧
    HTTP_CONNECTION_TIMEOUT = strBytes "522" ∧
    strBytes "521" ≠ strBytes "522" := by
  set_option maxRecDepth 4000 in decide

/-- C2 (amended): whenever `Send` fails it returns a synthetic
`HTTP/1.1 202 Accepted` buffer of the fixed template length 122 with the
error code at bytes 9..11; the produced codes are `521` for every
connection failure (including connect timeouts and unreachable origins —
the declared `522`/`523` constants are never emitted), `524` for a write
error or a read timeout with nothing read, and `520` when the reply does
not start with `HTTP`. -/
theorem send_failure_synthetic_error_codes :
    (∀ now code : Bytes, code.length = 3 →
      (errorPayload now code).length = 122 ∧
      statusBytes (errorPayload now code) = code) ∧
    (∀ cap fr rc : Nat, ∀ env : SendEnv, ∀ c : ConnFail,
      env.connAlive = false → connectModel env = .failed c →
      sendModel cap fr rc env = .failed (errorPayload env.now HTTP_CONNECTION_ERROR)) ∧
    (∀ cap fr rc : Nat, ∀ env : SendEnv,
      (env.connAlive = true ∨ connectModel env = .ok) → env.writeFail = true →
      sendModel cap fr rc env = .failed (errorPayload env.now HTTP_TIMEOUT)) ∧
    (∀ cap fr rc : Nat, ∀ env : SendEnv, ∀ st : SendLoopState,
      (env.connAlive = true ∨ connectModel env = .ok) → env.writeFail = false →
      sendLoop cap (sendLoopFuel env) ⟨[], 0, false, none, 0⟩ env.reads = .done st true →
      st.readBytes = 0 →
      sendModel cap fr rc env = .failed (errorPayload env.now HTTP_TIMEOUT)) ∧
    (∀ cap fr rc : Nat, ∀ env : SendEnv, ∀ st : SendLoopState, ∀ e : Bool,
      (env.connAlive = true ∨ connectModel env = .ok) → env.writeFail = false →
      sendLoop cap (sendLoopFuel env) ⟨[], 0, false, none, 0⟩ env.reads = .done st e →
      ¬(e = true ∧ st.readBytes = 0) →
      (st.readBytes < 4 ∨ st.buf.take 4 ≠ strBytes "HTTP") →
      sendModel cap fr rc env = .failed (errorPayload env.now HTTP_UNKNOWN_ERROR)) ∧
    (∀ cap fr rc : Nat, ∀ env : SendEnv, ∀ p : Bytes,
      sendModel cap fr rc env = .failed p →
      statusBytes p = HTTP_UNKNOWN_ERROR ∨ statusBytes p = HTTP_CONNECTION_ERROR ∨
        statusBytes p = HTTP_TIMEOUT) := by
  have hmodel : ∀ cap fr rc : Nat, ∀ env : SendEnv,
      (env.connAlive = true ∨ connectModel env = .ok) →
      sendModel cap fr rc env = sendInner cap fr rc env := by
    intro cap fr rc env hA
    rcases hA with hA | hA
    · simp [sendModel, hA]
    · by_cases hB : env.connAlive = true
      · simp [sendModel, hB]
      · simp only [Bool.not_eq_true] at hB
        simp [sendModel, hB, hA]
  refine ⟨fun now code hc => ⟨errorPayload_length now code hc,
            statusBytes_errorPayload now code hc⟩, ?_, ?_, ?_, ?_, ?_⟩
  · intro cap fr rc env c hA hc
    simp [sendModel, hA, hc]
  · intro cap fr rc env hA hW
    rw [hmodel cap fr rc env hA]
    simp [sendInner, hW]
  · intro cap fr rc env st hA hW hL hrb
    rw [hmodel cap fr rc env hA]
    simp only [sendInner, hW, Bool.false_eq_true, if_false, hL, sendPostLoop]
    simp [hrb]
  · intro cap fr rc env st e hA hW hL hne hbad
    rw [hmodel cap fr rc env hA]
    simp only [sendInner, hW, Bool.false_eq_true, if_false, hL, sendPostLoop]
    rw [if_neg (by tauto), if_pos hbad]
  · intro cap fr rc env p h
    rcases sendModel_failed cap fr rc env p h with h1 | h1 | h1 <;>
      rw [h1, statusBytes_errorPayload _ _ (by decide)] <;> tauto

/-- C2, witness for the amended theorem at concrete inputs: the 521 path on
a refused connection and the shape of a concrete error payload. -/
theorem send_failure_synthetic_error_codes_witness :
    ((errorPayload (strBytes "now") HTTP_TIMEOUT).length = 122 ∧
      statusBytes (errorPayload (strBytes "now") HTTP_TIMEOUT) = HTTP_TIMEOUT) ∧
    sendModel 1000 0 0 ⟨false, none, some .refused, false, [], strBytes "now"⟩ =
      .failed (errorPayload (strBytes "now") HTTP_CONNECTION_ERROR) :=
  ⟨send_failure_synthetic_error_codes.1 (strBytes "now") HTTP_TIMEOUT (by decide),
   send_failure_synthetic_error_codes.2.1 1000 0 0
     ⟨false, none, some .refused, false, [], strBytes "now"⟩ .refused rfl (by decide)⟩

/-- C8, counterexample: with a non-`http` proxy scheme and a dead
connection, `Connect` panics, but `Send` is not fatal — its deferred
`recover` swallows the panic and `Send` returns a nil response. -/
theorem nonhttp_proxy_send_not_fatal :
    connectModel ⟨false, some "socks5", none, false, [], []⟩ = .panicked ∧
    sendModel 1000 0 0 ⟨false, some "socks5", none, false, [], []⟩ = .recovered ∧
    (∀ p : Bytes, SendResult.recovered ≠ .ok p ∧ SendResult.recovered ≠ .failed p) := by
  refine ⟨by decide, by decide, fun p => ⟨by simp, by simp⟩⟩

/-- C8 (amended): when the proxy resolved at construction has a scheme
other than `http` and the client needs to connect, `Connect` panics
(`panic("Unsupported HTTP Proxy method")`) — a fatal error when
unrecovered — and inside `Send` that panic is caught by the deferred
`recover`, so `Send` returns a nil response: neither a normal nor a
synthetic response is produced. -/
theorem nonhttp_proxy_connect_panics_send_recovers
    (cap fr rc : Nat) (env : SendEnv) (s : String)
    (h1 : env.connAlive = false) (h2 : env.proxyScheme = some s) (h3 : s ≠ "http") :
    connectModel env = .panicked ∧ sendModel cap fr rc env = .recovered := by
  have hc : connectModel env = .panicked := by simp [connectModel, h2, h3]
  exact ⟨hc, by simp [sendModel, h1, hc]⟩

/-- C8, witness: the amended theorem applied to an `https` proxy. -/
theorem nonhttp_proxy_connect_panics_send_recovers_witness :
    connectModel ⟨false, some "https", none, false, [], []⟩ = .panicked ∧
    sendModel 5 0 0 ⟨false, some "https", none, false, [], []⟩ = .recovered :=
  nonhttp_proxy_connect_panics_send_recovers 5 0 0
    ⟨false, some "https", none, false, [], []⟩ "https" rfl rfl (by decide)

/-- C4, counterexample: after a failed write with channel contents
`[[0], [1]]` (in-flight payload `[0]`), the payload is re-enqueued at the
tail — the next payload delivered from the channel is `[1]`, not the
re-enqueued `[0]` as the claim states. -/
theorem tcp_worker_reenqueue_not_at_head :
    (workerOnWriteError [[0], [1]]).queue = [[1], [0]] ∧
    (workerOnWriteError [[0], [1]]).queue.head? ≠ some [0] := by decide

/-- C4 (amended): when a worker's write of a payload fails, the in-flight
payload is re-enqueued at the tail of its channel (a Go channel is a FIFO,
so it is delivered after everything currently queued), and a replacement
worker for the same channel is spawned before the failed worker exits. -/
theorem tcp_worker_reenqueue_tail_and_respawn (d : Bytes) (rest : List Bytes) :
    workerOnWriteError (d :: rest) = ⟨rest ++ [d], true, true⟩ := rfl

/-- C5: with sticky mode on, the buffer index is the FNV32a hash of the
payload's UUID field modulo 10; two payloads with the same UUID get the
same index, and `TCPOutput.Write` enqueues both (when they are origin
payloads) into the same worker channel. -/
theorem sticky_same_uuid_same_channel (d1 d2 : Bytes)
    (h : payloadUUID d1 = payloadUUID d2) :
    getBufferIndex true d1 = fnv32a (payloadUUID d1) % 10 ∧
    getBufferIndex true d1 = getBufferIndex true d2 ∧
    (isOriginPayload d1 = true → isOriginPayload d2 = true →
      ∃ i, (tcpOutputWrite true d1).enqueued = some (i, d1) ∧
           (tcpOutputWrite true d2).enqueued = some (i, d2)) := by
  refine ⟨by simp [getBufferIndex], by rw [getBufferIndex, getBufferIndex, h], ?_⟩
  intro h1 h2
  exact ⟨getBufferIndex true d1,
    by simp [tcpOutputWrite, h1],
    by simp [tcpOutputWrite, h2, getBufferIndex, h]⟩

/-- C5, witness: a request and a response payload sharing UUID `abc`. -/
theorem sticky_same_uuid_same_channel_witness :
    payloadUUID (strBytes "1 abc 1 -1\nx") = payloadUUID (strBytes "2 abc 2 5\ny") ∧
    (getBufferIndex true (strBytes "1 abc 1 -1\nx") =
        fnv32a (payloadUUID (strBytes "1 abc 1 -1\nx")) % 10 ∧
      getBufferIndex true (strBytes "1 abc 1 -1\nx") =
        getBufferIndex true (strBytes "2 abc 2 5\ny") ∧
      (isOriginPayload (strBytes "1 abc 1 -1\nx") = true →
        isOriginPayload (strBytes "2 abc 2 5\ny") = true →
        ∃ i, (tcpOutputWrite true (strBytes "1 abc 1 -1\nx")).enqueued =
               some (i, strBytes "1 abc 1 -1\nx") ∧
             (tcpOutputWrite true (strBytes "2 abc 2 5\ny")).enqueued =
               some (i, strBytes "2 abc 2 5\ny"))) :=
  ⟨by decide, sticky_same_uuid_same_channel _ _ (by decide)⟩

/-- C9: a payload whose kind is not an origin kind (neither request nor
response) makes `TCPOutput.Write` return `(len(data), nil)` without
enqueueing anything into any worker channel, in both sticky and
non-sticky modes. -/
theorem tcp_write_drops_non_origin (sticky : Bool) (data : Bytes)
    (h : isOriginPayload data = false) :
    tcpOutputWrite sticky data = ⟨data.length, true, none⟩ := by
  simp [tcpOutputWrite, h]

/-- C9, witness: a replayed-response payload (kind 3) is not enqueued. -/
theorem tcp_write_drops_non_origin_witness :
    isOriginPayload (strBytes "3 abc 1 5\nHTTP/1.1 200 OK\r\n\r\n") = false ∧
    tcpOutputWrite true (strBytes "3 abc 1 5\nHTTP/1.1 200 OK\r\n\r\n") =
      ⟨(strBytes "3 abc 1 5\nHTTP/1.1 200 OK\r\n\r\n").length, true, none⟩ :=
  ⟨by decide, tcp_write_drops_non_origin true _ (by decide)⟩

/-! ## Buffer-size parser (`bufferParser` in `settings.go`)

Strings are modelled as `List Char`.  The regular expressions of the source
are modelled as decidable predicates with the same languages, and
`strconv.ParseInt(s, 0, 64)` is modelled including Go's base prefixes,
underscore rules and 64-bit range check.  The source computes
`lmt = len(size) - 2` *before* substituting the replacement string for a
blank input, and recovers the slice-bounds panic that this can cause into
the returned error; the model keeps both behaviours. -/

/-- Characters of a string literal. -/
def strChars (s : String) : List Char := s.toList

/-- Character class `[\da-f_]` under `(?i)`. -/
def isHexClassCh (c : Char) : Bool :=
  c.isDigit || ('a' ≤ c && c ≤ 'f') || ('A' ≤ c && c ≤ 'F') || c = '_'

/-- Matches `(?:0b|0x|0o)?[\da-f_]+` under `(?i)` (the numeric part of the
buffer regexes). -/
def numBody (s : List Char) : Bool :=
  (!s.isEmpty && s.all isHexClassCh) ||
  (match s with
   | '0' :: c :: rest =>
     (c.toLower = 'b' || c.toLower = 'x' || c.toLower = 'o') &&
       !rest.isEmpty && rest.all isHexClassCh
   | _ => false)

/-- Matches `(?i)^(?:0b|0x|0o)?[\da-f_]+$` (the `rB` regex). -/
def rBMatch (s : List Char) : Bool := numBody s

/-- Matches `(?i)^(?:0b|0x|0o)?[\da-f_]+ub$` for a unit letter `u`
(the `rKB`/`rMB`/`rGB`/`rTB` regexes). -/
def rUnitMatch (u : Char) (s : List Char) : Bool :=
  if 2 ≤ s.length then
    ((s.drop (s.length - 2)).map Char.toLower = [u, 'b']) && numBody (s.take (s.length - 2))
  else false

/-- Matches `^[\n\t\r 0.\f\a]*$` (the `empt` regex; note that the class is
not "all whitespace": it contains `0`, `.` and the bell character but not,
for example, the vertical tab). -/
def emptMatch (s : List Char) : Bool :=
  s.all fun c =>
    c = '\n' || c = '\t' || c = '\r' || c = ' ' || c = '0' || c = '.' ||
    c = '\x0c' || c = '\x07'

/-- State machine of Go `strconv`'s `underscoreOK`: underscores may only
separate digits (or follow a base prefix). -/
def underscoreLoop (hex : Bool) : List Char → Char → Bool
  | [], saw => saw ≠ '_'
  | c :: rest, saw =>
    if ('0' ≤ c && c ≤ '9') || (hex && 'a' ≤ c.toLower && c.toLower ≤ 'f') then
      underscoreLoop hex rest '0'
    else if c = '_' then
      if saw ≠ '0' then false else underscoreLoop hex rest '_'
    else if saw = '_' then false
    else underscoreLoop hex rest '!'

/-- Go `strconv.underscoreOK` on a full number literal. -/
def underscoreOK (s : List Char) : Bool :=
  let s1 := match s with
            | c :: r => if c = '-' || c = '+' then r else c :: r
            | [] => []
  match s1 with
  | '0' :: c :: r =>
    if c.toLower = 'b' || c.toLower = 'o' || c.toLower = 'x' then
      underscoreLoop (c.toLower = 'x') r '0'
    else underscoreLoop false s1 '^'
  | _ => underscoreLoop false s1 '^'

/-- Value of one digit character (any base up to 36), as in Go `strconv`. -/
def digitValCh (c : Char) : Option Nat :=
  if '0' ≤ c ∧ c ≤ '9' then some (c.toNat - 48)
  else if 'a' ≤ c ∧ c ≤ 'z' then some (c.toNat - 97 + 10)
  else if 'A' ≤ c ∧ c ≤ 'Z' then some (c.toNat - 65 + 10)
  else none

/-- Digit-folding loop of Go `strconv.ParseUint` (underscores skipped —
their placement was already validated). -/
def parseDigits (base : Nat) : List Char → Nat → Option Nat
  | [], acc => some acc
  | c :: rest, acc =>
    if c = '_' then parseDigits base rest acc
    else match digitValCh c with
         | some v => if v < base then parseDigits base rest (acc * base + v) else none
         | none => none

/-- Go `strconv.ParseUint(s, 0, 64)` up to the 64-bit range check (which
the model performs in `parseIntBase0`): base detection from the `0b`/`0o`/
`0x`/leading-`0` prefixes, underscore validation, digit folding. -/
def parseUintBase0 (u : List Char) : Option Nat :=
  if u.isEmpty then none
  else if !underscoreOK u then none
  else
    let bd : Nat × List Char :=
      match u with
      | '0' :: c :: r =>
        if c.toLower = 'b' && !r.isEmpty then (2, r)
        else if c.toLower = 'o' && !r.isEmpty then (8, r)
        else if c.toLower = 'x' && !r.isEmpty then (16, r)
        else (8, c :: r)
      | '0' :: [] => (8, [])
      | _ => (10, u)
    parseDigits bd.1 bd.2 0

/-- Go `strconv.ParseInt(s, 0, 64)`: optional sign, `ParseUint`, 64-bit
signed range check.  `none` models a non-nil error. -/
def parseIntBase0 (s : List Char) : Option Int :=
  match s with
  | [] => none
  | _ =>
    let su : Bool × List Char :=
      match s with
      | '+' :: r => (false, r)
      | '-' :: r => (true, r)
      | _ => (false, s)
    match parseUintBase0 su.2 with
    | none => none
    | some v =>
      if su.1 then if v ≤ 2 ^ 63 then some (-(v : Int)) else none
      else if v ≤ 2 ^ 63 - 1 then some (v : Int) else none

/-- Go slice `s[:hi]` with an `Int` bound: `none` models the slice-bounds
panic for a negative (or too large) bound. -/
def goSliceTo (s : List Char) (hi : Int) : Option (List Char) :=
  if 0 ≤ hi ∧ hi ≤ (s.length : Int) then some (s.take hi.toNat) else none

/-- Two's-complement wrap of Go `int64` multiplication results. -/
def wrap64 (x : Int) : Int := (x + 2 ^ 63) % 2 ^ 64 - 2 ^ 63

/-- Embeds `bufferParser(size, rpl)`: `lmt` is computed from the original
`size`, a blank input (per the `empt` class) is replaced by `rpl`, then the
first matching regex decides the branch; unit branches parse `size[:lmt]`
(a recovered panic — hence an error — when `lmt` is stale) and scale by
the unit.  `none` models a non-nil returned error. -/
def bufferParser (size rpl : List Char) : Option Int :=
  let lmt : Int := (size.length : Int) - 2
  let size := if emptMatch size then rpl else size
  if rBMatch size then parseIntBase0 size
  else if rUnitMatch 'k' size then
    (goSliceTo size lmt).bind fun b => (parseIntBase0 b).map fun v => wrap64 (v * 2 ^ 10)
  else if rUnitMatch 'm' size then
    (goSliceTo size lmt).bind fun b => (parseIntBase0 b).map fun v => wrap64 (v * 2 ^ 20)
  else if rUnitMatch 'g' size then
    (goSliceTo size lmt).bind fun b => (parseIntBase0 b).map fun v => wrap64 (v * 2 ^ 30)
  else if rUnitMatch 't' size then
    (goSliceTo size lmt).bind fun b => (parseIntBase0 b).map fun v => wrap64 (v * 2 ^ 40)
  else none


/-- An input outside the blank class is not replaced, so the replacement
string does not influence the result. -/
lemma bufferParser_nonblank (size rpl : List Char) (h : emptMatch size = false) :
    bufferParser size rpl = bufferParser size size := by
  simp only [bufferParser, h, Bool.false_eq_true, if_false]

/-- C7, counterexample: for the empty input the parser does not return the
parse of the supplied default when the default carries a size suffix — the
slice bound `lmt` was computed from the empty input, so `size[:lmt]`
panics (recovered into an error), although `"32MB"` itself parses fine.
(`"32MB"` is the very replacement the source's own doc comment suggests.) -/
theorem bufferParser_empty_with_suffixed_default_errors :
    bufferParser [] (strChars "32MB") = none ∧
    bufferParser (strChars "32MB") (strChars "32MB") = some (32 * 2 ^ 20) ∧
    (none : Option Int) ≠ some ((32 : Int) * 2 ^ 20) := by
  set_option maxRecDepth 4000 in decide

/-- C7 (amended): `parse("42mb") = 42·2^20`, `parse("0x12gB") = 18·2^30`,
`parse("1024") = 1024`, `parse("0b111") = 7` for every replacement string;
for an empty or blank-class input the parser retries with the replacement
but keeps the slice bound derived from the original input, so it returns
the parse of the replacement without error when the replacement has no
size-unit suffix (such as `"0"`), and errors on a suffixed replacement
such as `"32MB"`. -/
theorem bufferParser_values :
    (∀ rpl : List Char, bufferParser (strChars "42mb") rpl = some (42 * 2 ^ 20)) ∧
    (∀ rpl : List Char, bufferParser (strChars "0x12gB") rpl = some (18 * 2 ^ 30)) ∧
    (∀ rpl : List Char, bufferParser (strChars "1024") rpl = some 1024) ∧
    (∀ rpl : List Char, bufferParser (strChars "0b111") rpl = some 7) ∧
    bufferParser [] (strChars "0") = some 0 ∧
    bufferParser (strChars "\n\n 0.0\r\t\x0c") (strChars "0") = some 0 ∧
    bufferParser [] (strChars "32MB") = none := by
  refine ⟨fun rpl => ?_, fun rpl => ?_, fun rpl => ?_, fun rpl => ?_, ?_, ?_, ?_⟩ <;>
    first
      | exact (bufferParser_nonblank _ _ (by decide)).trans
          (by set_option maxRecDepth 4000 in decide)
      | set_option maxRecDepth 4000 in decide

/-! ## File sink indexed naming (`getFileIndex` / `setFileIndex`)

Paths are `List Char`.  `filepath.Ext` scans from the end of the path for
a dot, stopping at a path separator; `strings.TrimSuffix`,
`strings.LastIndex(s, "_")`, `strconv.Atoi` and `strconv.Itoa` are
modelled below. -/

/-- Scanner of `filepath.Ext`, walking the reversed path and accumulating
the scanned suffix: stops with `[]` at a separator, returns the extension
at the first dot. -/
def extScan : List Char → List Char → List Char
  | [], _ => []
  | c :: rest, acc =>
    if c = '/' then []
    else if c = '.' then '.' :: acc
    else extScan rest (c :: acc)

/-- Embeds `filepath.Ext`: the suffix beginning at the final dot of the
final path element, empty when there is none. -/
def filepathExt (p : List Char) : List Char := extScan p.reverse []

/-- Embeds `strings.TrimSuffix`. -/
def trimSuffix (l s : List Char) : List Char :=
  if s.length ≤ l.length ∧ l.drop (l.length - s.length) = s then
    l.take (l.length - s.length)
  else l

/-- Helper for `strings.LastIndex(s, "_")`: index of the last occurrence
of a character (`none` for Go's `-1`). -/
def lastIdxAux (target : Char) : List Char → Nat → Option Nat → Option Nat
  | [], _, best => best
  | c :: rest, i, best =>
    lastIdxAux target rest (i + 1) (if c = target then some i else best)

/-- Index of the last occurrence of `c` in `l`. -/
def lastIndexOfCh (l : List Char) (c : Char) : Option Nat := lastIdxAux c l 0 none

/-- Embeds `strconv.Atoi`: optional sign, decimal digits, 64-bit range
check; `none` models a non-nil error. -/
def goAtoi (s : List Char) : Option Int :=
  match s with
  | [] => none
  | c :: r =>
    let su : Bool × List Char :=
      if c = '+' then (false, r) else if c = '-' then (true, r) else (false, c :: r)
    if su.2.isEmpty then none
    else if su.2.all (fun d => '0' ≤ d && d ≤ '9') then
      let v := su.2.foldl (fun (a : Nat) d => a * 10 + (d.toNat - 48)) 0
      if su.1 then if v ≤ 2 ^ 63 then some (-(v : Int)) else none
      else if v ≤ 2 ^ 63 - 1 then some (v : Int) else none
    else none

/-- Embeds `strconv.Itoa` for a non-negative value: the decimal digit
characters of `n`. -/
def natToChars (n : Nat) : List Char :=
  if n = 0 then ['0']
  else (Nat.digits 10 n).reverse.map fun d => Char.ofNat (48 + d)

/-- The shared index-stripping step of `getFileIndex` and `setFileIndex`:
drop a trailing `_<int>` (underscore to end) when the tail after the last
underscore parses as an integer. -/
def stripIndexSuffix (w : List Char) : List Char :=
  match lastIndexOfCh w '_' with
  | some i =>
    match goAtoi (w.drop (i + 1)) with
    | some _ => w.take i
    | none => w
  | none => w

/-- Embeds `getFileIndex`: the integer after the last underscore of the
path without its extension, `-1` when there is none. -/
def getFileIndex (name : List Char) : Int :=
  let ext := filepathExt name
  let withoutExt := trimSuffix name ext
  match lastIndexOfCh withoutExt '_' with
  | some idx =>
    match goAtoi (withoutExt.drop (idx + 1)) with
    | some i => i
    | none => -1
  | none => -1

/-- Embeds `setFileIndex`: strip an existing `_<int>` before the extension
and splice `_<idx>` there instead. -/
def setFileIndex (name : List Char) (idx : Nat) : List Char :=
  stripIndexSuffix (trimSuffix name (filepathExt name)) ++
    '_' :: natToChars idx ++ filepathExt name

/-- The spec's "basename-without-index": the path with its `_<int>` index
removed (extension kept). -/
def baseWithoutIndex (name : List Char) : List Char :=
  stripIndexSuffix (trimSuffix name (filepathExt name)) ++ filepathExt name

/-! ### Lemmas about the path-extension scanner -/

lemma extScan_acc_nil : ∀ (xs : List Char) (acc acc' : List Char),
    extScan xs acc = [] → extScan xs acc' = [] := by
  intro xs
  induction xs with
  | nil => intro acc acc' h; rfl
  | cons c rest ih =>
    intro acc acc' h
    by_cases hc : c = '/'
    · simp [extScan, hc]
    · by_cases hd : c = '.'
      · simp [extScan, hc, hd] at h
      · simp only [extScan, hc, hd, if_false] at h ⊢
        exact ih _ _ h

lemma extScan_shape : ∀ (xs acc : List Char),
    (∀ c ∈ acc, c ≠ '.' ∧ c ≠ '/') →
    extScan xs acc = [] ∨
      ∃ r, extScan xs acc = '.' :: r ∧ ∀ c ∈ r, c ≠ '.' ∧ c ≠ '/' := by
  intro xs
  induction xs with
  | nil => intro acc _; exact Or.inl rfl
  | cons c rest ih =>
    intro acc hacc
    by_cases hc : c = '/'
    · exact Or.inl (by simp [extScan, hc])
    · by_cases hd : c = '.'
      · exact Or.inr ⟨acc, by simp [extScan, hc, hd], hacc⟩
      · simp only [extScan, hc, hd, if_false]
        exact ih (c :: acc) (by
          intro x hx
          rcases List.mem_cons.mp hx with hx | hx
          · exact hx ▸ ⟨hd, hc⟩
          · exact hacc x hx)

lemma extScan_suffix : ∀ (xs acc : List Char),
    ∃ w, xs.reverse ++ acc = w ++ extScan xs acc := by
  intro xs
  induction xs with
  | nil => intro acc; exact ⟨acc, by simp [extScan]⟩
  | cons c rest ih =>
    intro acc
    by_cases hc : c = '/'
    · exact ⟨(c :: rest).reverse ++ acc, by simp [extScan, hc]⟩
    · by_cases hd : c = '.'
      · refine ⟨rest.reverse, ?_⟩
        simp [extScan, hc, hd]
      · obtain ⟨w, hw⟩ := ih (c :: acc)
        refine ⟨w, ?_⟩
        simp only [extScan, hc, hd, if_false]
        rw [← hw]
        simp

lemma extScan_append_nodot : ∀ (xs ys acc : List Char),
    (∀ c ∈ xs, c ≠ '.' ∧ c ≠ '/') →
    extScan (xs ++ ys) acc = extScan ys (xs.reverse ++ acc) := by
  intro xs
  induction xs with
  | nil => intro ys acc _; simp
  | cons c rest ih =>
    intro ys acc hclean
    have hc := hclean c (by simp)
    simp only [List.cons_append, extScan, hc.2, hc.1, if_false, List.append_eq]
    rw [ih ys (c :: acc) (fun x hx => hclean x (by simp [hx]))]
    simp

lemma filepathExt_shape (p : List Char) :
    filepathExt p = [] ∨
      ∃ r, filepathExt p = '.' :: r ∧ ∀ c ∈ r, c ≠ '.' ∧ c ≠ '/' :=
  extScan_shape p.reverse [] (by simp)

lemma ext_is_suffix (p : List Char) : ∃ w, p = w ++ filepathExt p := by
  obtain ⟨w, hw⟩ := extScan_suffix p.reverse []
  exact ⟨w, by simpa using hw⟩

lemma filepathExt_append_dotext (a r : List Char)
    (hr : ∀ c ∈ r, c ≠ '.' ∧ c ≠ '/') :
    filepathExt (a ++ '.' :: r) = '.' :: r := by
  have h1 : (a ++ '.' :: r).reverse = r.reverse ++ '.' :: a.reverse := by simp
  rw [filepathExt, h1,
    extScan_append_nodot r.reverse ('.' :: a.reverse) []
      (fun c hc => hr c (List.mem_reverse.mp hc))]
  simp [extScan]

lemma filepathExt_append_clean (w' t : List Char)
    (hnil : ∀ acc, extScan w'.reverse acc = [])
    (ht : ∀ c ∈ t, c ≠ '.' ∧ c ≠ '/') :
    filepathExt (w' ++ t) = [] := by
  have h1 : (w' ++ t).reverse = t.reverse ++ w'.reverse := by simp
  rw [filepathExt, h1,
    extScan_append_nodot t.reverse w'.reverse []
      (fun c hc => ht c (List.mem_reverse.mp hc))]
  exact hnil _

/-! ### Lemmas about suffix trimming and last-underscore search -/

lemma trimSuffix_append (a s : List Char) : trimSuffix (a ++ s) s = a := by
  have h1 : (a ++ s).drop ((a ++ s).length - s.length) = s := by
    rw [List.length_append, Nat.add_sub_cancel, List.drop_left]
  have h2 : (a ++ s).take ((a ++ s).length - s.length) = a := by
    rw [List.length_append, Nat.add_sub_cancel, List.take_left]
  rw [trimSuffix, if_pos ⟨by simp, h1⟩, h2]

lemma lastIdxAux_no_target (t : Char) : ∀ (xs : List Char) (i : Nat) (best : Option Nat),
    (∀ c ∈ xs, c ≠ t) → lastIdxAux t xs i best = best := by
  intro xs
  induction xs with
  | nil => intro i best _; rfl
  | cons c rest ih =>
    intro i best h
    have hc : c ≠ t := h c (by simp)
    simp only [lastIdxAux, hc, if_false]
    exact ih _ _ (fun x hx => h x (by simp [hx]))

lemma lastIdxAux_append_target (t : Char) (d : List Char)
    (hd : ∀ c ∈ d, c ≠ t) : ∀ (a : List Char) (i : Nat) (best : Option Nat),
    lastIdxAux t (a ++ t :: d) i best = some (i + a.length) := by
  intro a
  induction a with
  | nil =>
    intro i best
    simp only [List.nil_append, lastIdxAux, if_pos rfl]
    rw [lastIdxAux_no_target t d _ _ hd]
    simp
  | cons c a' ih =>
    intro i best
    simp only [List.cons_append, lastIdxAux, List.append_eq]
    rw [ih (i + 1) _]
    simp only [List.length_cons]
    congr 1
    omega

lemma lastIndexOf_append (a d : List Char) (t : Char) (hd : ∀ c ∈ d, c ≠ t) :
    lastIndexOfCh (a ++ t :: d) t = some a.length := by
  rw [lastIndexOfCh, lastIdxAux_append_target t d hd a 0 none, Nat.zero_add]

/-! ### Lemmas about decimal rendering and parsing -/

lemma char_ofNat_digit_toNat (d : Nat) (h : d < 10) :
    (Char.ofNat (48 + d)).toNat = 48 + d := by
  interval_cases d <;> decide

lemma char_ofNat_digit_range (d : Nat) (h : d < 10) :
    '0' ≤ Char.ofNat (48 + d) ∧ Char.ofNat (48 + d) ≤ '9' := by
  interval_cases d <;> decide

lemma natToChars_ne_nil (n : Nat) : natToChars n ≠ [] := by
  rw [natToChars]
  split_ifs with h
  · simp
  · simp [Nat.digits_ne_nil_iff_ne_zero.mpr h]

lemma natToChars_all_digits (n : Nat) :
    ∀ c ∈ natToChars n, '0' ≤ c ∧ c ≤ '9' := by
  intro c hc
  rw [natToChars] at hc
  split_ifs at hc with h
  · simp at hc
    subst hc; exact ⟨le_refl _, by decide⟩
  · simp only [List.mem_map, List.mem_reverse] at hc
    obtain ⟨d, hd, rfl⟩ := hc
    exact char_ofNat_digit_range d (Nat.digits_lt_base (by norm_num) hd)

lemma digit_char_facts (c : Char) (h : '0' ≤ c ∧ c ≤ '9') :
    c ≠ '.' ∧ c ≠ '/' ∧ c ≠ '_' ∧ c ≠ '+' ∧ c ≠ '-' := by
  refine ⟨?_, ?_, ?_, ?_, ?_⟩ <;> (rintro rfl; revert h; decide)

lemma foldl_digit_chars : ∀ (L : List Nat) (v : Nat), (∀ d ∈ L, d < 10) →
    List.foldl (fun (a : Nat) c => a * 10 + (c.toNat - 48)) v
        (L.reverse.map fun d => Char.ofNat (48 + d)) =
      v * 10 ^ L.length + Nat.ofDigits 10 L := by
  intro L
  induction L with
  | nil => intro v _; simp
  | cons d L' ih =>
    intro v hlt
    have hd : d < 10 := hlt d (by simp)
    simp only [List.reverse_cons, List.map_append, List.map_cons, List.map_nil,
      List.foldl_append, List.foldl_cons, List.foldl_nil]
    rw [ih v (fun x hx => hlt x (by simp [hx]))]
    rw [char_ofNat_digit_toNat d hd, Nat.ofDigits_cons]
    simp only [List.length_cons]
    ring_nf
    omega

lemma goAtoi_natToChars (n : Nat) (h : n ≤ 2 ^ 63 - 1) :
    goAtoi (natToChars n) = some (n : Int) := by
  obtain ⟨c, rest, hcr⟩ : ∃ c rest, natToChars n = c :: rest := by
    cases hn : natToChars n with
    | nil => exact absurd hn (natToChars_ne_nil n)
    | cons c rest => exact ⟨c, rest, rfl⟩
  have hdig : ∀ x ∈ natToChars n, '0' ≤ x ∧ x ≤ '9' := natToChars_all_digits n
  have hcdig := hdig c (by rw [hcr]; simp)
  have hfacts := digit_char_facts c hcdig
  have hall : (c :: rest).all (fun d => '0' ≤ d && d ≤ '9') = true := by
    rw [List.all_eq_true]
    intro x hx
    have := hdig x (by rw [hcr]; exact hx)
    simp [this.1, this.2]
  have hval : (c :: rest).foldl (fun (a : Nat) d => a * 10 + (d.toNat - 48)) 0 = n := by
    rw [← hcr, natToChars]
    split_ifs with h0
    · subst h0; decide
    · rw [foldl_digit_chars (Nat.digits 10 n) 0
        (fun d hd => Nat.digits_lt_base (by norm_num) hd)]
      simp [Nat.ofDigits_digits]
  rw [hcr, goAtoi]
  simp only [hfacts.2.2.2.1, hfacts.2.2.2.2, if_false, List.isEmpty_cons,
    Bool.false_eq_true, hall, if_true, hval]
  rw [if_pos h]

lemma goAtoi_chars (s : List Char) (v : Int) (h : goAtoi s = some v) :
    ∀ c ∈ s, c = '+' ∨ c = '-' ∨ ('0' ≤ c ∧ c ≤ '9') := by
  cases s with
  | nil => simp [goAtoi] at h
  | cons c r =>
    intro x hx
    rw [goAtoi] at h
    by_cases hp : c = '+'
    · cases hall : r.all (fun d => '0' ≤ d && d ≤ '9') with
      | false => simp [hp, hall] at h
      | true =>
        rcases List.mem_cons.mp hx with rfl | hxr
        · exact Or.inl hp
        · have := List.all_eq_true.mp hall x hxr
          exact Or.inr (Or.inr (by simpa using this))
    · by_cases hm : c = '-'
      · cases hall : r.all (fun d => '0' ≤ d && d ≤ '9') with
        | false => simp [hp, hm, hall] at h
        | true =>
          rcases List.mem_cons.mp hx with rfl | hxr
          · exact Or.inr (Or.inl hm)
          · have := List.all_eq_true.mp hall x hxr
            exact Or.inr (Or.inr (by simpa using this))
      · cases hall : (c :: r).all (fun d => '0' ≤ d && d ≤ '9') with
        | false => simp [hp, hm, hall] at h
        | true =>
          have := List.all_eq_true.mp hall x hx
          exact Or.inr (Or.inr (by simpa using this))

lemma goAtoi_tail_clean (d : List Char) (v : Int) (h : goAtoi d = some v) :
    ∀ c ∈ d, c ≠ '.' ∧ c ≠ '/' := by
  intro c hc
  rcases goAtoi_chars d v h c hc with rfl | rfl | hd
  · exact ⟨by decide, by decide⟩
  · exact ⟨by decide, by decide⟩
  · have hf := digit_char_facts c hd
    exact ⟨hf.1, hf.2.1⟩

lemma lastIdxAux_decomp (t : Char) : ∀ (xs : List Char) (i : Nat)
    (best : Option Nat) (j : Nat), lastIdxAux t xs i best = some j →
    (best = some j ∧ ∀ c ∈ xs, c ≠ t) ∨
      (∃ a d, xs = a ++ t :: d ∧ j = i + a.length ∧ ∀ c ∈ d, c ≠ t) := by
  intro xs
  induction xs with
  | nil =>
    intro i best j h
    exact Or.inl ⟨h, by simp⟩
  | cons c rest ih =>
    intro i best j h
    rw [lastIdxAux] at h
    by_cases hct : c = t
    · rw [if_pos hct] at h
      rcases ih (i + 1) (some i) j h with ⟨hb, hclean⟩ | ⟨a, d, hrest, hj, hd⟩
      · refine Or.inr ⟨[], rest, ?_, ?_, hclean⟩
        · rw [hct]; simp
        · simpa using (Option.some_injective _ hb).symm
      · refine Or.inr ⟨c :: a, d, by rw [hrest]; rfl, ?_, hd⟩
        rw [hj]; simp; omega
    · rw [if_neg hct] at h
      rcases ih (i + 1) best j h with ⟨hb, hclean⟩ | ⟨a, d, hrest, hj, hd⟩
      · exact Or.inl ⟨hb, fun x hx => by
          rcases List.mem_cons.mp hx with rfl | hxr
          · exact hct
          · exact hclean x hxr⟩
      · refine Or.inr ⟨c :: a, d, by rw [hrest]; rfl, ?_, hd⟩
        rw [hj]; simp; omega

lemma lastIndexOf_decomp (w : List Char) (t : Char) (j : Nat)
    (h : lastIndexOfCh w t = some j) :
    ∃ a d, w = a ++ t :: d ∧ j = a.length ∧ ∀ c ∈ d, c ≠ t := by
  rcases lastIdxAux_decomp t w 0 none j h with ⟨hb, _⟩ | ⟨a, d, hw, hj, hd⟩
  · exact absurd hb (by simp)
  · exact ⟨a, d, hw, by omega, hd⟩

lemma trimSuffix_nil (l : List Char) : trimSuffix l [] = l := by
  rw [trimSuffix, if_pos ⟨by simp, by simp⟩]
  simp

lemma stripIndexSuffix_decomp (w : List Char) :
    stripIndexSuffix w = w ∨
      ∃ tail v, w = stripIndexSuffix w ++ '_' :: tail ∧ goAtoi tail = some v := by
  cases hL : lastIndexOfCh w '_' with
  | none => exact Or.inl (by simp [stripIndexSuffix, hL])
  | some i =>
    cases hA : goAtoi (w.drop (i + 1)) with
    | none => exact Or.inl (by simp [stripIndexSuffix, hL, hA])
    | some v =>
      obtain ⟨a, d, hw, hi, _⟩ := lastIndexOf_decomp w '_' i hL
      have hlen : (a ++ ['_']).length = i + 1 := by simp [hi]
      have hsplit : w = (a ++ ['_']) ++ d := by rw [hw, List.append_cons]
      have hdrop : w.drop (i + 1) = d := by rw [hsplit, List.drop_left' hlen]
      have htake : w.take i = a := by
        rw [hw, hi]; exact List.take_left' rfl
      have hstrip : stripIndexSuffix w = a := by
        simp only [stripIndexSuffix, hL, hA, htake]
      refine Or.inr ⟨d, v, ?_, ?_⟩
      · rw [hstrip]; exact hw
      · rw [← hdrop]; exact hA

lemma stripIndexSuffix_extScan_nil (w : List Char)
    (hn : ∀ acc, extScan w.reverse acc = []) :
    ∀ acc, extScan (stripIndexSuffix w).reverse acc = [] := by
  rcases stripIndexSuffix_decomp w with he | ⟨tail, v, hw, hv⟩
  · rw [he]; exact hn
  · intro acc
    have hclean : ∀ c ∈ ('_' :: tail).reverse, c ≠ '.' ∧ c ≠ '/' := by
      intro c hc
      rcases List.mem_cons.mp (List.mem_reverse.mp hc) with rfl | hct
      · exact ⟨by decide, by decide⟩
      · exact goAtoi_tail_clean tail v hv c hct
    have h1 : w.reverse = ('_' :: tail).reverse ++ (stripIndexSuffix w).reverse := by
      conv_lhs => rw [hw]
      rw [List.reverse_append]
    have h2 := hn []
    rw [h1, extScan_append_nodot _ _ [] hclean] at h2
    exact extScan_acc_nil _ _ acc h2

lemma underscore_digits_clean (n : Nat) :
    ∀ c ∈ '_' :: natToChars n, c ≠ '.' ∧ c ≠ '/' := by
  intro c hc
  rcases List.mem_cons.mp hc with rfl | hcd
  · exact ⟨by decide, by decide⟩
  · have hf := digit_char_facts c (natToChars_all_digits n c hcd)
    exact ⟨hf.1, hf.2.1⟩

lemma natToChars_no_underscore (n : Nat) : ∀ c ∈ natToChars n, c ≠ '_' :=
  fun c hc => (digit_char_facts c (natToChars_all_digits n c hc)).2.2.1

lemma stripIndexSuffix_spliced (S : List Char) (n : Nat) (hn : n ≤ 2 ^ 63 - 1) :
    stripIndexSuffix (S ++ '_' :: natToChars n) = S := by
  have hlast : lastIndexOfCh (S ++ '_' :: natToChars n) '_' = some S.length :=
    lastIndexOf_append S (natToChars n) '_' (natToChars_no_underscore n)
  have hdropd : (S ++ '_' :: natToChars n).drop (S.length + 1) = natToChars n := by
    rw [List.append_cons, List.drop_left' (by simp)]
  have htaked : (S ++ '_' :: natToChars n).take S.length = S := List.take_left' rfl
  simp only [stripIndexSuffix, hlast, hdropd, goAtoi_natToChars n hn, htaked]

lemma filepathExt_setFileIndex (p : List Char) (n : Nat) :
    filepathExt (setFileIndex p n) = filepathExt p := by
  rcases filepathExt_shape p with hnil | ⟨r, hr, hrclean⟩
  · rw [setFileIndex, hnil, trimSuffix_nil]
    simp only [List.append_nil]
    exact filepathExt_append_clean _ _
      (stripIndexSuffix_extScan_nil p (fun acc => extScan_acc_nil _ _ _ hnil))
      (underscore_digits_clean n)
  · have hset' : setFileIndex p n =
        (stripIndexSuffix (trimSuffix p (filepathExt p)) ++ '_' :: natToChars n) ++
          filepathExt p := by
      rw [setFileIndex, List.append_assoc, List.cons_append]
    rw [hset', hr]
    exact filepathExt_append_dotext _ r hrclean

/-- C6: the indexed-rename operation is a bijection with its reader — for
every path `p` and every `int64`-representable natural `n`,
`getFileIndex(setFileIndex(p, n)) = n`; `setFileIndex` preserves the
extension and the basename-without-index, and splices `_<n>` immediately
before the extension (at the end when there is none). -/
theorem file_index_roundtrip (p : List Char) (n : Nat) (hn : n ≤ 2 ^ 63 - 1) :
    getFileIndex (setFileIndex p n) = (n : Int) ∧
    filepathExt (setFileIndex p n) = filepathExt p ∧
    baseWithoutIndex (setFileIndex p n) = baseWithoutIndex p ∧
    setFileIndex p n =
      stripIndexSuffix (trimSuffix p (filepathExt p)) ++
        '_' :: natToChars n ++ filepathExt p := by
  have hext : filepathExt (setFileIndex p n) = filepathExt p :=
    filepathExt_setFileIndex p n
  have hset : setFileIndex p n =
      (stripIndexSuffix (trimSuffix p (filepathExt p)) ++ '_' :: natToChars n) ++
        filepathExt p := by
    rw [setFileIndex, List.append_assoc, List.cons_append]
  have htrim : trimSuffix (setFileIndex p n) (filepathExt p) =
      stripIndexSuffix (trimSuffix p (filepathExt p)) ++ '_' :: natToChars n := by
    rw [hset, trimSuffix_append]
  refine ⟨?_, hext, ?_, rfl⟩
  · simp only [getFileIndex]
    rw [hext, htrim]
    generalize stripIndexSuffix (trimSuffix p (filepathExt p)) = S
    have hlast : lastIndexOfCh (S ++ '_' :: natToChars n) '_' = some S.length :=
      lastIndexOf_append S (natToChars n) '_' (natToChars_no_underscore n)
    have hdropd : (S ++ '_' :: natToChars n).drop (S.length + 1) = natToChars n := by
      rw [List.append_cons, List.drop_left' (by simp)]
    simp only [hlast, hdropd, goAtoi_natToChars n hn]
  · rw [baseWithoutIndex, hext, htrim, baseWithoutIndex]
    generalize stripIndexSuffix (trimSuffix p (filepathExt p)) = S
    rw [stripIndexSuffix_spliced S n hn]

/-- C6, witness: the round trip at `/tmp/logs_1.gz` with index 10. -/
theorem file_index_roundtrip_witness :
    getFileIndex (setFileIndex (strChars "/tmp/logs_1.gz") 10) = (10 : Int) ∧
    filepathExt (setFileIndex (strChars "/tmp/logs_1.gz") 10) =
      filepathExt (strChars "/tmp/logs_1.gz") ∧
    baseWithoutIndex (setFileIndex (strChars "/tmp/logs_1.gz") 10) =
      baseWithoutIndex (strChars "/tmp/logs_1.gz") ∧
    setFileIndex (strChars "/tmp/logs_1.gz") 10 =
      stripIndexSuffix (trimSuffix (strChars "/tmp/logs_1.gz")
          (filepathExt (strChars "/tmp/logs_1.gz"))) ++
        '_' :: natToChars 10 ++ filepathExt (strChars "/tmp/logs_1.gz") :=
  file_index_roundtrip (strChars "/tmp/logs_1.gz") 10 (by norm_num)

/-! ## Emitter copy loop (`CopyMulty` in `emitter.go`)

One loop iteration is embedded as a transition on `(wIndex, filtered)`.
The modifier pipeline (`NewHTTPModifier` / `Rewrite`) and `prettifyHTTP`
live outside this tree; they are abstracted as the parameters `rewrite`
and `prettifyFn` (modelled from the spec §4.5: a request body transformer
that returns an empty body to signal a drop). -/

/-- What one `CopyMulty` iteration did: payloads written (with writer
index), UUID recorded in / removed from `filtered_requests`, and whether
the too-large warning fired. -/
structure CopyEffect where
  written : List (Nat × Bytes)
  filteredAdd : Option Bytes
  filteredRemove : Option Bytes
  warned : Bool
  deriving DecidableEq, Repr

/-- The emission tail of a `CopyMulty` iteration: optional `prettifyHTTP`
(an emptied payload is skipped), then either a round-robin write to one
writer or a write to every writer. -/
def copyEmit (splitOutput : Bool) (numWriters : Nat)
    (prettify : Bool) (prettifyFn : Bytes → Bytes)
    (wIndex : Nat) (filtered : List Bytes) (payload : Bytes) :
    CopyEffect × Nat × List Bytes :=
  let payload' := if prettify then prettifyFn payload else payload
  if prettify ∧ payload'.length = 0 then
    (⟨[], none, none, false⟩, wIndex, filtered)
  else if splitOutput then
    (⟨[(wIndex, payload')], none, none, false⟩,
     if numWriters ≤ wIndex + 1 then 0 else wIndex + 1, filtered)
  else
    (⟨(List.range numWriters).map fun i => (i, payload'), none, none, false⟩,
     wIndex, filtered)

/-- Embeds one iteration of `CopyMulty`'s read loop for a read returning
`chunk` (`nr = len(chunk)`): malformed envelopes are skipped, requests run
through the modifier (an empty rewritten body records the UUID in
`filtered_requests` and drops the payload; a changed body length
re-assembles the payload), responses of filtered requests are dropped and
unfiltered, the rest is emitted via `copyEmit`; a read that fills the
whole copy buffer is only warned about. -/
def copyMultyStep (bufSize : Nat) (splitOutput : Bool) (numWriters : Nat)
    (modifierNil : Bool) (rewrite : Bytes → Bytes)
    (prettify : Bool) (prettifyFn : Bytes → Bytes)
    (wIndex : Nat) (filtered : List Bytes) (chunk : Bytes) :
    CopyEffect × Nat × List Bytes :=
  let nr := chunk.length
  if 0 < nr ∧ nr < bufSize then
    let payload := chunk
    let meta := payloadMeta payload
    if meta.length < 3 then (⟨[], none, none, false⟩, wIndex, filtered)
    else
      let requestID := meta.getD 1 []
      if modifierNil = false then
        if isRequestPayload payload then
          let headSize := match findInfixIdx [10] payload with
                          | some i => i + 1
                          | none => 0
          let body := payload.drop headSize
          let body' := rewrite body
          if body'.length = 0 then
            (⟨[], some requestID, none, false⟩, wIndex, filtered ++ [requestID])
          else
            let payload' := if body.length ≠ body'.length then
                              payload.take headSize ++ body'
                            else payload
            copyEmit splitOutput numWriters prettify prettifyFn wIndex filtered payload'
        else
          if requestID ∈ filtered then
            (⟨[], none, some requestID, false⟩, wIndex, filtered.erase requestID)
          else copyEmit splitOutput numWriters prettify prettifyFn wIndex filtered payload
      else copyEmit splitOutput numWriters prettify prettifyFn wIndex filtered payload
  else if 0 < nr then (⟨[], none, none, true⟩, wIndex, filtered)
  else (⟨[], none, none, false⟩, wIndex, filtered)

lemma copyEmit_written_eq (splitOutput : Bool) (numWriters wIndex : Nat)
    (prettifyFn : Bytes → Bytes) (filtered : List Bytes) (payload : Bytes)
    (i : Nat) (pl : Bytes)
    (h : (i, pl) ∈ (copyEmit splitOutput numWriters false prettifyFn
        wIndex filtered payload).1.written) : pl = payload := by
  simp only [copyEmit, Bool.false_eq_true, false_and, if_false] at h
  split_ifs at h <;>
    simp only [List.mem_singleton, List.mem_map, List.mem_range,
      Prod.mk.injEq] at h <;>
    first
      | exact h.2
      | (obtain ⟨j, _, _, hpl⟩ := h
         exact hpl.symm)

/-- C10, counterexample: a forwarded payload is not always strictly shorter
than the copy-buffer size — a configured modifier may inflate the request
body after the size check, here a 7-byte read rewritten to 16 bytes with
`bufSize = 8`. -/
theorem copy_forwarded_payload_can_exceed_buffer :
    ((copyMultyStep 8 false 1 false
        (fun b => b ++ b ++ b ++ b ++ b ++ b ++ b ++ b ++ b ++ b)
        false id 0 [] (strBytes "1 a 1\nX")).1.written.map
      fun pr => pr.2.length) = [16] ∧
    (strBytes "1 a 1\nX").length < 8 ∧ ¬(16 < 8) := by decide

/-- C10 (amended): a read that fills the whole copy buffer is discarded
with a warning — nothing is written, `filtered_requests` is untouched —
so every forwarded payload originates from a read strictly shorter than
the buffer; with no modifier and no prettifying, the forwarded bytes are
the read bytes themselves and hence strictly shorter than the buffer size
(a configured modifier may inflate them past it). -/
theorem copy_full_buffer_reads_discarded :
    (∀ (bufSize numWriters wIndex : Nat) (splitOutput modifierNil prettify : Bool)
       (rewrite prettifyFn : Bytes → Bytes) (filtered : List Bytes) (chunk : Bytes),
      chunk.length = bufSize → 0 < bufSize →
      copyMultyStep bufSize splitOutput numWriters modifierNil rewrite prettify
          prettifyFn wIndex filtered chunk =
        (⟨[], none, none, true⟩, wIndex, filtered)) ∧
    (∀ (bufSize numWriters wIndex : Nat) (splitOutput : Bool)
       (rewrite prettifyFn : Bytes → Bytes) (filtered : List Bytes)
       (chunk : Bytes) (i : Nat) (pl : Bytes),
      (i, pl) ∈ (copyMultyStep bufSize splitOutput numWriters true rewrite false
          prettifyFn wIndex filtered chunk).1.written →
      pl = chunk ∧ pl.length < bufSize) := by
  constructor
  · intro bufSize numWriters wIndex splitOutput modifierNil prettify
      rewrite prettifyFn filtered chunk h1 h2
    simp only [copyMultyStep]
    rw [if_neg (by rw [h1]; omega), if_pos (by rw [h1]; omega)]
  · intro bufSize numWriters wIndex splitOutput rewrite prettifyFn filtered
      chunk i pl hmem
    by_cases h : 0 < chunk.length ∧ chunk.length < bufSize
    · by_cases hm : (payloadMeta chunk).length < 3
      · rw [copyMultyStep, if_pos h, if_pos hm] at hmem
        simp at hmem
      · rw [copyMultyStep, if_pos h, if_neg hm] at hmem
        rw [if_neg (by simp)] at hmem
        have heq := copyEmit_written_eq _ _ _ _ _ _ _ _ hmem
        exact ⟨heq, by rw [heq]; exact h.2⟩
    · rw [copyMultyStep, if_neg h] at hmem
      split_ifs at hmem <;> simp at hmem

/-- C10, witness: a 4-byte read with a 4-byte buffer is warned about and
not forwarded. -/
theorem copy_full_buffer_reads_discarded_witness :
    copyMultyStep 4 false 2 true id false id 0 [] (strBytes "1 a ") =
      (⟨[], none, none, true⟩, 0, []) :=
  copy_full_buffer_reads_discarded.1 4 2 0 false true false id id [] (strBytes "1 a ")
    (by decide) (by decide)

/-! ## Packet reassembler

The reassembler implementation (`raw_socket_listener`) is exercised by its
tests but is not part of this tree; the flow model below is modelled from
the spec (§4.3): per-direction messages hold their packets in an ordered
map keyed by `seq` (retransmissions replace) and bytes are joined in seq
order at completion; responses are distinguished by their `ack` (the
pairing table keys responses by ack); a `1xx` outgoing message is absorbed
— neither emitted nor paired; an incoming message with
`Expect: 100-continue` has that header stripped; a completed request is
indexed by `next_seq = first_seq + wire_length` and a response pairs with
it (inheriting its UUID) when `ack = next_seq`, unpaired responses keep a
zero UUID; a chunked message completes when its body ends with
`0\r\n\r\n`, and remaining messages are flushed at expiry. -/

/-- One captured TCP packet, as the listener tests build them
(`buildPacket(isIncoming, ack, seq, data)`). -/
structure RawPacket where
  isIncoming : Bool
  ack : Nat
  seq : Nat
  data : Bytes
  deriving DecidableEq, Repr

/-- Insert a packet into a seq-ordered parts list; an equal seq replaces
(retransmission). -/
def insertPart : List (Nat × Bytes) → Nat → Bytes → List (Nat × Bytes)
  | [], s, d => [(s, d)]
  | (s', d') :: rest, s, d =>
    if s < s' then (s, d) :: (s', d') :: rest
    else if s = s' then (s, d) :: rest
    else (s', d') :: insertPart rest s d

/-- Insert an outgoing packet into the ack-keyed message table (one
response message per ack, kept ordered by ack). -/
def insertGrouped : List (Nat × List (Nat × Bytes)) → Nat → Nat → Bytes →
    List (Nat × List (Nat × Bytes))
  | [], a, s, d => [(a, [(s, d)])]
  | (a', parts) :: rest, a, s, d =>
    if a < a' then (a, [(s, d)]) :: (a', parts) :: rest
    else if a = a' then (a', insertPart parts s d) :: rest
    else (a', parts) :: insertGrouped rest a s d

/-- Bytes of a message: its parts joined in seq order. -/
def joinParts (parts : List (Nat × Bytes)) : Bytes := (parts.map Prod.snd).flatten

/-- The `Expect: 100-continue\r\n` header line stripped from requests. -/
def expectHeaderB : Bytes := strBytes "Expect: 100-continue\r\n"

/-- What the flow model emits: the request (when complete), its UUID
token, and each non-`1xx` response with the UUID it inherited (0 when
unpaired). -/
structure ReassemblyResult where
  request : Option Bytes
  requestUUID : Nat
  responses : List (Bytes × Nat)
  deriving DecidableEq, Repr

/-- Modelled from the spec: one packet updates the flow state — incoming
packets join the single in-progress incoming message (parts keyed by seq),
outgoing packets join the response message of their ack. -/
def reassembleStep (st : List (Nat × Bytes) × List (Nat × List (Nat × Bytes)))
    (p : RawPacket) : List (Nat × Bytes) × List (Nat × List (Nat × Bytes)) :=
  if p.isIncoming then (insertPart st.1 p.seq p.data, st.2)
  else (st.1, insertGrouped st.2 p.ack p.seq p.data)

/-- Modelled from the spec: emission at the end of the flow (expiry
flushes the close-terminated response): the request's bytes joined in seq
order with the `Expect: 100-continue` header stripped (emitted when its
chunked framing is complete), `1xx` responses absorbed, the rest paired
by `ack = next_seq` and inheriting the request's UUID (zero otherwise). -/
def reassembleFinalize
    (st : List (Nat × Bytes) × List (Nat × List (Nat × Bytes))) :
    ReassemblyResult :=
  let reqParts := st.1
  let respGroups := st.2
  let rawReq := joinParts reqParts
  let reqBytes := deleteFirstInfix expectHeaderB rawReq
  let firstSeq := match reqParts with
                  | (s, _) :: _ => s
                  | [] => 0
  let nextSeq := firstSeq + (reqParts.map (fun pr => pr.2.length)).sum
  let requestUUID := 1
  let reqComplete :=
    if headerValue reqBytes (strBytes "Transfer-Encoding") = strBytes "chunked" then
      hasSuffixB reqBytes chunkedSuffix
    else true
  let responses := respGroups.filterMap (fun g =>
    let bytes := joinParts g.2
    let s := statusNum bytes
    if 100 ≤ s ∧ s < 200 then none
    else some (bytes, if g.1 = nextSeq then requestUUID else 0))
  ⟨if reqComplete ∧ rawReq ≠ [] then some reqBytes else none, requestUUID, responses⟩

/-- Modelled from the spec: reassembly of one flow's packets — fold the
packets into the flow state, then finalize. -/
def reassembleFlow (ps : List RawPacket) : ReassemblyResult :=
  reassembleFinalize (ps.foldl reassembleStep ([], []))

/-- The six packets of `TestRawListenerChunkedWrongOrder`: a chunked
request with `Expect: 100-continue` split into four packets, the
`100 Continue` interim response, and the final `200 OK`. -/
def chunkedPackets : List RawPacket :=
  [⟨true, 1, 1,
      strBytes "POST / HTTP/1.1\r\nTransfer-Encoding: chunked\r\nExpect: 100-continue\r\n\r\n"⟩,
   ⟨true, 24, 70, strBytes "1\r\na\r\n"⟩,
   ⟨true, 24, 76, strBytes "1\r\nb\r\n"⟩,
   ⟨true, 24, 82, strBytes "0\r\n\r\n"⟩,
   ⟨false, 70, 1, strBytes "HTTP/1.1 100 Continue\r\n"⟩,
   ⟨false, 87, 24, strBytes "HTTP/1.1 200 OK\r\n\r\n"⟩]

/-- The request bytes the test expects (Expect header stripped). -/
def chunkedRequestBytes : Bytes :=
  strBytes "POST / HTTP/1.1\r\nTransfer-Encoding: chunked\r\n\r\n1\r\na\r\n1\r\nb\r\n0\r\n\r\n"

/-- The paired response bytes. -/
def chunkedResponseBytes : Bytes := strBytes "HTTP/1.1 200 OK\r\n\r\n"

lemma insertPart_comm (s1 s2 : Nat) (d1 d2 : Bytes) (h : s1 ≠ s2) :
    ∀ parts, insertPart (insertPart parts s1 d1) s2 d2 =
      insertPart (insertPart parts s2 d2) s1 d1 := by
  intro parts
  induction parts with
  | nil =>
    simp only [insertPart]
    split_ifs <;> first
      | omega
      | simp_all [insertPart]
  | cons hd rest ih =>
    obtain ⟨s', d'⟩ := hd
    simp only [insertPart]
    split_ifs <;> first
      | omega
      | (simp_all [insertPart]; try split_ifs <;> first | rfl | omega)

lemma insertGrouped_comm (a1 s1 a2 s2 : Nat) (d1 d2 : Bytes)
    (h : a1 ≠ a2 ∨ s1 ≠ s2) :
    ∀ groups, insertGrouped (insertGrouped groups a1 s1 d1) a2 s2 d2 =
      insertGrouped (insertGrouped groups a2 s2 d2) a1 s1 d1 := by
  by_cases hA : a1 = a2
  · subst hA
    have hs : s1 ≠ s2 := by tauto
    intro groups
    induction groups with
    | nil =>
      simp only [insertGrouped]
      split_ifs <;> first
        | omega
        | (simp_all [insertGrouped]
           simpa [insertPart] using insertPart_comm s1 s2 d1 d2 hs [])
    | cons hd rest ih =>
      obtain ⟨a', parts⟩ := hd
      rcases Nat.lt_trichotomy a1 a' with h1 | h1 | h1
      · simp only [insertGrouped, if_pos h1, lt_irrefl, if_false, if_pos rfl,
          if_neg (lt_irrefl a1), if_true]
        exact congrArg (· :: (a', parts) :: rest)
          (congrArg (Prod.mk a1) (by
            simpa [insertPart] using insertPart_comm s1 s2 d1 d2 hs []))
      · subst h1
        simp only [insertGrouped, if_neg (lt_irrefl a1), if_pos rfl, if_true]
        exact congrArg (· :: rest)
          (congrArg (Prod.mk a1) (insertPart_comm s1 s2 d1 d2 hs parts))
      · have h2 : ¬a1 < a' := by omega
        have h3 : ¬a1 = a' := by omega
        simp only [insertGrouped, if_neg h2, if_neg h3]
        exact congrArg ((a', parts) :: ·) ih
  · intro groups
    induction groups with
    | nil =>
      simp only [insertGrouped]
      split_ifs <;> first
        | omega
        | simp_all [insertGrouped]
    | cons hd rest ih =>
      obtain ⟨a', parts⟩ := hd
      simp only [insertGrouped]
      split_ifs <;> first
        | omega
        | (simp_all [insertGrouped]; try split_ifs <;> first | rfl | omega)

/-- Two packets never sharing a message slot: incoming packets differ in
seq; outgoing packets differ in ack or in seq. -/
def KeysDisjoint (p q : RawPacket) : Prop :=
  (p.isIncoming = true → q.isIncoming = true → p.seq ≠ q.seq) ∧
  (p.isIncoming = false → q.isIncoming = false → p.ack ≠ q.ack ∨ p.seq ≠ q.seq)

instance (p q : RawPacket) : Decidable (KeysDisjoint p q) := by
  unfold KeysDisjoint
  infer_instance

lemma reassembleStep_comm (p q : RawPacket) (hk : KeysDisjoint p q) :
    ∀ z, reassembleStep (reassembleStep z p) q =
      reassembleStep (reassembleStep z q) p := by
  intro z
  cases hp : p.isIncoming <;> cases hq : q.isIncoming <;>
    simp only [reassembleStep, hp, hq, if_true, if_false, Bool.false_eq_true]
  · exact congrArg (Prod.mk z.1)
      (insertGrouped_comm p.ack p.seq q.ack q.seq p.data q.data (hk.2 hp hq) z.2)
  · exact congrArg (fun x => (x, z.2))
      (insertPart_comm p.seq q.seq p.data q.data (hk.1 hp hq) z.1)

lemma reassembleFlow_perm (l₁ l₂ : List RawPacket) (h : l₁.Perm l₂)
    (hkeys : ∀ x ∈ l₁, ∀ y ∈ l₁, x = y ∨ KeysDisjoint x y) :
    reassembleFlow l₁ = reassembleFlow l₂ := by
  rw [reassembleFlow, reassembleFlow]
  exact congrArg reassembleFinalize
    (h.foldl_eq' (fun x hx y hy z => by
      rcases hkeys x hx y hy with rfl | hkd
      · rfl
      · exact reassembleStep_comm x y hkd z) ([], []))

lemma chunkedPackets_keys :
    ∀ x ∈ chunkedPackets, ∀ y ∈ chunkedPackets, x = y ∨ KeysDisjoint x y := by
  decide

/-- C1: reassembly is insensitive to packet arrival order — for flows
whose packets occupy distinct message slots the result is
permutation-invariant, and in particular every one of the 720 arrival
orders of the chunked-request test flow (4 request packets with
`Expect: 100-continue` + the `100 Continue` + the `200 OK`) emits the
byte-identical chunked request and a paired `200 OK` response carrying
the request's UUID. -/
theorem chunked_reassembly_order_insensitive :
    (∀ l₁ l₂ : List RawPacket, l₁.Perm l₂ →
      (∀ x ∈ l₁, ∀ y ∈ l₁, x = y ∨ KeysDisjoint x y) →
      reassembleFlow l₁ = reassembleFlow l₂) ∧
    (∀ l : List RawPacket, l.Perm chunkedPackets →
      reassembleFlow l =
        ⟨some chunkedRequestBytes, 1, [(chunkedResponseBytes, 1)]⟩) :=
  ⟨reassembleFlow_perm,
   fun l h =>
     (reassembleFlow_perm l chunkedPackets h
        (fun x hx y hy =>
          chunkedPackets_keys x (h.subset hx) y (h.subset hy))).trans
       (by set_option maxRecDepth 20000 in decide)⟩

/-- C1, witness: the identity arrival order of the chunked test flow. -/
theorem chunked_reassembly_order_insensitive_witness :
    reassembleFlow chunkedPackets =
      ⟨some chunkedRequestBytes, 1, [(chunkedResponseBytes, 1)]⟩ :=
  chunked_reassembly_order_insensitive.2 chunkedPackets (List.Perm.refl _)

/-! ## Infrastructure for the `send` read-loop proof: byte-pattern search -/

lemma hasPrefixB_iff (l p : Bytes) : hasPrefixB l p = true ↔ ∃ t, l = p ++ t := by
  induction p generalizing l with
  | nil => simp [hasPrefixB]
  | cons b bs ih =>
    cases l with
    | nil => simp [hasPrefixB]
    | cons a as =>
      simp only [hasPrefixB, Bool.and_eq_true, decide_eq_true_eq, ih,
        List.cons_append, List.cons.injEq]
      constructor
      · rintro ⟨rfl, t, rfl⟩
        exact ⟨t, rfl, rfl⟩
      · rintro ⟨t, rfl, rfl⟩
        exact ⟨rfl, t, rfl⟩

lemma hasPrefixB_length_le (l p : Bytes) (h : hasPrefixB l p = true) :
    p.length ≤ l.length := by
  obtain ⟨t, rfl⟩ := (hasPrefixB_iff l p).mp h
  simp

lemma hasPrefixB_append_long (x e p : Bytes) (h : p.length ≤ x.length) :
    hasPrefixB (x ++ e) p = hasPrefixB x p := by
  induction p generalizing x with
  | nil => cases x <;> simp [hasPrefixB]
  | cons b bs ih =>
    cases x with
    | nil => simp at h
    | cons a as =>
      simp only [List.cons_append, hasPrefixB, List.append_eq]
      rw [ih as (by simpa using h)]

lemma hasPrefixB_of_take (x p : Bytes) (m : Nat)
    (h : hasPrefixB (x.take m) p = true) : hasPrefixB x p = true := by
  obtain ⟨t, ht⟩ := (hasPrefixB_iff _ p).mp h
  rw [hasPrefixB_iff]
  exact ⟨t ++ x.drop m, by rw [← List.append_assoc, ← ht, List.take_append_drop]⟩

lemma findInfix_some_spec (pat l : Bytes) (i : Nat)
    (h : findInfixIdx pat l = some i) :
    hasPrefixB (l.drop i) pat = true ∧
      ∀ j, j < i → hasPrefixB (l.drop j) pat = false := by
  induction l generalizing i with
  | nil =>
    rw [findInfixIdx] at h
    split_ifs at h with hp
    · obtain rfl : i = 0 := by simpa using (Option.some_injective _ h.symm)
      exact ⟨by simp [List.isEmpty_iff.mp hp, hasPrefixB], by omega⟩
  | cons x xs ih =>
    rw [findInfixIdx] at h
    split_ifs at h with hp
    · obtain rfl : i = 0 := by simpa using (Option.some_injective _ h.symm)
      exact ⟨hp, by omega⟩
    · cases hfx : findInfixIdx pat xs with
      | none => rw [hfx] at h; simp at h
      | some i' =>
        rw [hfx] at h
        obtain rfl : i = i' + 1 := by simpa using (Option.some_injective _ h.symm)
        obtain ⟨h1, h2⟩ := ih i' hfx
        refine ⟨by simpa using h1, ?_⟩
        intro j hj
        cases j with
        | zero => simpa using (Bool.not_eq_true _).mp hp
        | succ j' => simpa using h2 j' (by omega)

lemma findInfix_of_prefix_min (pat l : Bytes) (i : Nat) (hne : pat ≠ [])
    (h1 : hasPrefixB (l.drop i) pat = true)
    (h2 : ∀ j, j < i → hasPrefixB (l.drop j) pat = false) :
    findInfixIdx pat l = some i := by
  induction l generalizing i with
  | nil =>
    have hle := hasPrefixB_length_le _ _ h1
    simp only [List.drop_nil, List.length_nil] at hle
    have : pat = [] := List.length_eq_zero.mp (by omega)
    exact absurd this hne
  | cons x xs ih =>
    rw [findInfixIdx]
    cases i with
    | zero =>
      rw [if_pos (by simpa using h1)]
    | succ i' =>
      rw [if_neg (by
        have := h2 0 (by omega)
        simpa using this)]
      rw [ih i' (by simpa using h1) (fun j hj => by simpa using h2 (j + 1) (by omega))]
      rfl

lemma findInfix_append_of_some (pat a t : Bytes) (i : Nat) (hne : pat ≠ [])
    (h : findInfixIdx pat a = some i) :
    findInfixIdx pat (a ++ t) = some i := by
  obtain ⟨h1, h2⟩ := findInfix_some_spec pat a i h
  have hpl : 0 < pat.length := by
    cases pat with
    | nil => exact absurd rfl hne
    | cons b bs => simp
  have hib : i + pat.length ≤ a.length := by
    have := hasPrefixB_length_le _ _ h1
    simp only [List.length_drop] at this
    omega
  apply findInfix_of_prefix_min pat _ i hne
  · have hd : (a ++ t).drop i = a.drop i ++ t :=
      List.drop_append_of_le_length (by omega)
    rw [hd, hasPrefixB_append_long (a.drop i) t pat
      (by simp only [List.length_drop]; omega)]
    exact h1
  · intro j hj
    have hd : (a ++ t).drop j = a.drop j ++ t :=
      List.drop_append_of_le_length (by omega)
    rw [hd, hasPrefixB_append_long (a.drop j) t pat
      (by simp only [List.length_drop]; omega)]
    exact h2 j hj

lemma findInfix_take_none (pat l : Bytes) (i k : Nat) (hne : pat.isEmpty = false)
    (h : findInfixIdx pat l = some i) (hk : k < i + pat.length) :
    findInfixIdx pat (l.take k) = none := by
  obtain ⟨_, h2⟩ := findInfix_some_spec pat l i h
  cases hfx : findInfixIdx pat (l.take k) with
  | none => rfl
  | some j =>
    obtain ⟨hj1, _⟩ := findInfix_some_spec pat _ j hfx
    have hpl : 0 < pat.length := by
      cases pat with
      | nil => simp at hne
      | cons a l => simp
    have hjk : j + pat.length ≤ k := by
      have h3 := hasPrefixB_length_le _ _ hj1
      simp only [List.length_drop, List.length_take] at h3
      omega
    have : hasPrefixB (l.drop j) pat = true := by
      apply hasPrefixB_of_take _ _ (k - j)
      rw [← List.drop_take]
      exact hj1
    rw [h2 j (by omega)] at this
    exact absurd this (by simp)

/-- A complete `1xx` informational head in wire form: its first (and only)
empty line closes it, its status is in `100..199`, and it does not declare
chunked transfer encoding. -/
def Is1xxHead (h : Bytes) : Prop :=
  12 < h.length ∧
  findInfixIdx emptyLineB h = some (h.length - 4) ∧
  100 ≤ statusNum h ∧ statusNum h < 200 ∧
  headerValue h (strBytes "Transfer-Encoding") ≠ strBytes "chunked"

instance : DecidablePred Is1xxHead := fun h => by
  unfold Is1xxHead; infer_instance

/-- A well-formed final (non-`1xx`) response: starts with `HTTP`, its
status-line bytes contain no `\r` before position 12 (so the head's empty
line cannot start inside the status code), its head is complete, and its
status is not informational. -/
def IsFinalResp (f : Bytes) : Prop :=
  f.take 4 = strBytes "HTTP" ∧
  (∀ j, j < 12 → hasPrefixB (f.drop j) emptyLineB = false) ∧
  (findInfixIdx emptyLineB f).isSome = true ∧
  ¬(100 ≤ statusNum f ∧ statusNum f < 200)

instance : DecidablePred IsFinalResp := fun f => by
  unfold IsFinalResp; infer_instance

lemma IsFinalResp.sixteen_le (f : Bytes) (h : IsFinalResp f) : 16 ≤ f.length := by
  obtain ⟨-, h12, hsome, -⟩ := h
  obtain ⟨i, hi⟩ := Option.isSome_iff_exists.mp hsome
  obtain ⟨h1, -⟩ := findInfix_some_spec _ _ _ hi
  have hlen := hasPrefixB_length_le _ _ h1
  simp only [List.length_drop] at hlen
  have hi12 : 12 ≤ i := by
    by_contra hc
    rw [h12 i (by omega)] at h1
    exact absurd h1 (by simp)
  have hpat : emptyLineB.length = 4 := by decide
  omega

/-- In any prefix of a well-formed final response, an empty line can only be
found at index `≥ 12`, and it lies fully inside the prefix. -/
lemma finalResp_take_infix (f : Bytes) (hfin : IsFinalResp f) (k i : Nat)
    (h : findInfixIdx emptyLineB (f.take k) = some i) :
    12 ≤ i ∧ i + 4 ≤ k := by
  obtain ⟨-, h12, -, -⟩ := hfin
  obtain ⟨h1, -⟩ := findInfix_some_spec _ _ _ h
  have hlen := hasPrefixB_length_le _ _ h1
  simp only [List.length_drop, List.length_take] at hlen
  have hpat : emptyLineB.length = 4 := by decide
  have hi12 : 12 ≤ i := by
    by_contra hc
    have hdt : (f.take k).drop i = (f.drop i).take (k - i) := List.drop_take k i f
    rw [hdt] at h1
    have := hasPrefixB_of_take _ _ _ h1
    rw [h12 i (by omega)] at this
    exact absurd this (by simp)
  omega

lemma statusBytes_take (l : Bytes) (k : Nat) (hk : 12 ≤ k) :
    statusBytes (l.take k) = statusBytes l := by
  unfold statusBytes
  rw [List.drop_take, List.take_take]
  congr 1
  exact inf_eq_left.mpr (by omega)

lemma statusBytes_append (a t : Bytes) (ha : 12 ≤ a.length) :
    statusBytes (a ++ t) = statusBytes a := by
  unfold statusBytes
  have h9 : (a ++ t).drop 9 = a.drop 9 ++ t :=
    List.drop_append_of_le_length (by omega)
  rw [h9]
  exact List.take_append_of_le_length (by simp only [List.length_drop]; omega)

lemma headerValue_head_append (h t name : Bytes) (h4 : 4 ≤ h.length)
    (hf : findInfixIdx emptyLineB h = some (h.length - 4)) :
    headerValue (h ++ t) name = headerValue h name := by
  have hf2 : findInfixIdx emptyLineB (h ++ t) = some (h.length - 4) :=
    findInfix_append_of_some _ _ _ _ (by decide) hf
  have htk : (h ++ t).take (h.length - 4 + 2) = h.take (h.length - 4 + 2) :=
    List.take_append_of_le_length (by omega)
  simp only [headerValue, hf, hf2, htk]

lemma append_eq_split (a b c d : Bytes) (h : a ++ b = c ++ d)
    (hl : c.length ≤ a.length) : ∃ u, a = c ++ u ∧ d = u ++ b := by
  induction c generalizing a with
  | nil => exact ⟨a, rfl, by simpa using h.symm⟩
  | cons x c' ih =>
    cases a with
    | nil => simp at hl
    | cons y a' =>
      simp only [List.cons_append, List.cons.injEq] at h
      obtain ⟨rfl, h2⟩ := h
      obtain ⟨u, hu1, hu2⟩ := ih a' h2 (by simpa using hl)
      exact ⟨u, by simp [hu1], hu2⟩

lemma flatten_length_count (hs : List Bytes) (h : ∀ x ∈ hs, 1 ≤ x.length) :
    hs.length ≤ hs.flatten.length := by
  induction hs with
  | nil => simp
  | cons a t ih =>
    simp only [List.flatten_cons, List.length_append, List.length_cons]
    have h1 := h a (by simp)
    have h2 := ih (fun x hx => h x (by simp [hx]))
    omega

/-! ## Single-iteration step lemmas for the `send` read loop -/

/-- Data read in parse mode, no empty line in the buffer yet: the loop keeps
accumulating. -/
lemma sendLoopStep_data_noline (cap fuel : Nat) (sbuf b : Bytes) (sccl : Nat)
    (evs' : List ReadEv)
    (hrb : sbuf.length < cap) (hbs : b.take (cap - sbuf.length) = b)
    (hfind : findInfixIdx emptyLineB (sbuf ++ b) = none)
    (hmax : ¬ maxResponseSize ≤ sbuf.length + b.length) :
    sendLoop cap (fuel + 1) ⟨sbuf, sbuf.length, false, none, sccl⟩ (.data b :: evs') =
      sendLoop cap fuel ⟨sbuf ++ b, sbuf.length + b.length, false, none, sccl⟩ evs' := by
  simp only [sendLoop, List.headD_cons, List.tail_cons, hbs]
  rw [if_pos hrb]
  simp only [Option.isSome_none, Bool.false_eq_true, false_or, or_self, if_false, hfind,
    List.length_append, false_and]
  rw [dif_neg (by simp)]
  exact if_neg hmax

/-- Data read in parse mode with a complete `1xx` head at the front of the
buffer: the head is deleted and the loop continues. -/
lemma sendLoopStep_data_delete (cap fuel : Nat) (h0 u b sbuf : Bytes) (sccl : Nat)
    (evs' : List ReadEv)
    (hrb : sbuf.length < cap) (hbs : b.take (cap - sbuf.length) = b)
    (hsplit : sbuf ++ b = h0 ++ u)
    (h0len : 12 < h0.length)
    (h0find : findInfixIdx emptyLineB h0 = some (h0.length - 4))
    (h0te : headerValue h0 (strBytes "Transfer-Encoding") ≠ strBytes "chunked")
    (h0s1 : 100 ≤ statusNum h0) (h0s2 : statusNum h0 < 200) :
    sendLoop cap (fuel + 1) ⟨sbuf, sbuf.length, false, none, sccl⟩ (.data b :: evs') =
      sendLoop cap fuel ⟨u, u.length, false, none, sccl⟩ evs' := by
  have hfind : findInfixIdx emptyLineB (sbuf ++ b) = some (h0.length - 4) := by
    rw [hsplit]; exact findInfix_append_of_some _ _ _ _ (by decide) h0find
  have hte : ¬ headerValue (sbuf ++ b) (strBytes "Transfer-Encoding") = strBytes "chunked" := by
    rw [hsplit, headerValue_head_append _ _ _ (by omega) h0find]; exact h0te
  have hst : statusNum (sbuf ++ b) = statusNum h0 := by
    rw [hsplit]; unfold statusNum; rw [statusBytes_append _ _ (by omega)]
  have hlen : (sbuf ++ b).length = h0.length + u.length := by
    rw [hsplit]; simp
  simp only [sendLoop, List.headD_cons, List.tail_cons, hbs]
  rw [if_pos hrb]
  simp only [Option.isSome_none, Bool.false_eq_true, false_or, or_self, if_false, hfind]
  rw [if_neg hte, if_pos (by rw [hst]; exact ⟨h0s1, h0s2⟩)]
  congr 1
  have hd : (sbuf ++ b).drop (h0.length - 4 + 4) = u := by
    rw [hsplit]
    have h44 : h0.length - 4 + 4 = h0.length := by omega
    rw [h44, List.drop_left]
  have hl4 : emptyLineB.length = 4 := by decide
  simp only [List.length_append] at hlen
  simp only [SendLoopState.mk.injEq, hl4, hd, true_and, and_true]
  omega

/-- Timed-out read in parse mode with a complete `1xx` head at the front of
the buffer: the head is still deleted and the loop continues. -/
lemma sendLoopStep_timeout_delete (cap fuel : Nat) (h0 u sbuf : Bytes) (sccl : Nat)
    (hrb : sbuf.length < cap)
    (hsplit : sbuf = h0 ++ u)
    (h0len : 12 < h0.length)
    (h0find : findInfixIdx emptyLineB h0 = some (h0.length - 4))
    (h0te : headerValue h0 (strBytes "Transfer-Encoding") ≠ strBytes "chunked")
    (h0s1 : 100 ≤ statusNum h0) (h0s2 : statusNum h0 < 200) :
    sendLoop cap (fuel + 1) ⟨sbuf, sbuf.length, false, none, sccl⟩ [] =
      sendLoop cap fuel ⟨u, u.length, false, none, sccl⟩ [] := by
  have hfind : findInfixIdx emptyLineB (sbuf ++ []) = some (h0.length - 4) := by
    rw [List.append_nil, hsplit]
    exact findInfix_append_of_some _ _ _ _ (by decide) h0find
  have hte : ¬ headerValue (sbuf ++ []) (strBytes "Transfer-Encoding") = strBytes "chunked" := by
    rw [List.append_nil, hsplit, headerValue_head_append _ _ _ (by omega) h0find]; exact h0te
  have hst : statusNum (sbuf ++ []) = statusNum h0 := by
    rw [List.append_nil, hsplit]; unfold statusNum; rw [statusBytes_append _ _ (by omega)]
  simp only [sendLoop, List.headD_nil, List.tail_nil]
  rw [if_pos hrb]
  simp only [Option.isSome_none, Bool.false_eq_true, false_or, or_self, if_false, hfind]
  rw [if_neg hte, if_pos (by rw [hst]; exact ⟨h0s1, h0s2⟩)]
  congr 1
  have hd : (sbuf ++ []).drop (h0.length - 4 + 4) = u := by
    rw [List.append_nil, hsplit]
    have h44 : h0.length - 4 + 4 = h0.length := by omega
    rw [h44, List.drop_left]
  have hl4 : emptyLineB.length = 4 := by decide
  have hlen : sbuf.length = h0.length + u.length := by rw [hsplit]; simp
  simp only [SendLoopState.mk.injEq, hl4, hd, true_and, and_true, List.length_nil]
  omega

/-- Data read while chunked framing is active: break on the `0\r\n\r\n`
suffix, otherwise keep reading. -/
lemma sendLoopStep_data_chunked (cap fuel : Nat) (sbuf b : Bytes) (scl : Option Nat)
    (sccl : Nat) (evs' : List ReadEv)
    (hrb : sbuf.length < cap) (hbs : b.take (cap - sbuf.length) = b)
    (hmax : ¬ maxResponseSize ≤ sbuf.length + b.length) :
    sendLoop cap (fuel + 1) ⟨sbuf, sbuf.length, true, scl, sccl⟩ (.data b :: evs') =
      if hasSuffixB (sbuf ++ b) chunkedSuffix = true then
        .done ⟨sbuf ++ b, sbuf.length + b.length, true, scl, sccl + b.length⟩ false
      else
        sendLoop cap fuel ⟨sbuf ++ b, sbuf.length + b.length, true, scl, sccl + b.length⟩ evs' := by
  simp only [sendLoop, List.headD_cons, List.tail_cons, hbs]
  rw [if_pos hrb]
  simp only [eq_self_iff_true, true_or, if_true, true_and, List.length_append]
  by_cases hsuf : hasSuffixB (sbuf ++ b) chunkedSuffix = true
  · simp only [if_pos hsuf]
  · simp only [if_neg hsuf]
    rw [dif_neg (by simp)]
    simp only [Bool.false_eq_true, if_false]
    exact if_neg hmax

/-- Data read while a Content-Length is being tracked: break on overrun or
exact match, otherwise keep reading. -/
lemma sendLoopStep_data_cl (cap fuel : Nat) (sbuf b : Bytes) (v sccl : Nat)
    (evs' : List ReadEv)
    (hrb : sbuf.length < cap) (hbs : b.take (cap - sbuf.length) = b)
    (hmax : ¬ maxResponseSize ≤ sbuf.length + b.length) :
    sendLoop cap (fuel + 1) ⟨sbuf, sbuf.length, false, some v, sccl⟩ (.data b :: evs') =
      if v < sccl + b.length then
        .done ⟨sbuf ++ b, sbuf.length + b.length, false, some v, sccl + b.length⟩ false
      else if sccl + b.length = v then
        .done ⟨sbuf ++ b, sbuf.length + b.length, false, some v, sccl + b.length⟩ false
      else
        sendLoop cap fuel ⟨sbuf ++ b, sbuf.length + b.length, false, some v, sccl + b.length⟩ evs' := by
  simp only [sendLoop, List.headD_cons, List.tail_cons, hbs]
  rw [if_pos hrb]
  simp only [Option.isSome_some, Bool.false_eq_true, false_or, if_true, false_and, if_false,
    List.length_append, not_false_iff, and_true, Option.get_some]
  rw [dif_pos (by simp)]
  rw [if_neg hmax]

/-- Data read in parse mode: the head completes and declares chunked
transfer encoding. -/
lemma sendLoopStep_data_te (cap fuel : Nat) (sbuf b : Bytes) (sccl : Nat) (i : Nat)
    (evs' : List ReadEv)
    (hrb : sbuf.length < cap) (hbs : b.take (cap - sbuf.length) = b)
    (hfind : findInfixIdx emptyLineB (sbuf ++ b) = some i)
    (hte : headerValue (sbuf ++ b) (strBytes "Transfer-Encoding") = strBytes "chunked")
    (hmax : ¬ maxResponseSize ≤ sbuf.length + b.length) :
    sendLoop cap (fuel + 1) ⟨sbuf, sbuf.length, false, none, sccl⟩ (.data b :: evs') =
      if hasSuffixB (sbuf ++ b) chunkedSuffix = true then
        .done ⟨sbuf ++ b, sbuf.length + b.length, true, none,
               sccl + (bodyOf (sbuf ++ b)).length⟩ false
      else
        sendLoop cap fuel ⟨sbuf ++ b, sbuf.length + b.length, true, none,
               sccl + (bodyOf (sbuf ++ b)).length⟩ evs' := by
  simp only [sendLoop, List.headD_cons, List.tail_cons, hbs]
  rw [if_pos hrb]
  simp only [Option.isSome_none, Bool.false_eq_true, false_or, or_self, if_false, hfind]
  rw [if_pos hte]
  simp only [eq_self_iff_true, true_and, List.length_append]
  by_cases hsuf : hasSuffixB (sbuf ++ b) chunkedSuffix = true
  · simp only [if_pos hsuf]
  · simp only [if_neg hsuf]
    rw [dif_neg (by simp)]
    simp only [Bool.false_eq_true, if_false, if_neg hmax]

/-- Data read in parse mode: the head completes with status 204/304. -/
lemma sendLoopStep_data_204 (cap fuel : Nat) (sbuf b : Bytes) (sccl : Nat) (i : Nat)
    (evs' : List ReadEv)
    (hrb : sbuf.length < cap) (hbs : b.take (cap - sbuf.length) = b)
    (hfind : findInfixIdx emptyLineB (sbuf ++ b) = some i)
    (hte : ¬ headerValue (sbuf ++ b) (strBytes "Transfer-Encoding") = strBytes "chunked")
    (hn1 : ¬ (100 ≤ statusNum (sbuf ++ b) ∧ statusNum (sbuf ++ b) < 200))
    (h24 : statusNum (sbuf ++ b) = 204 ∨ statusNum (sbuf ++ b) = 304) :
    sendLoop cap (fuel + 1) ⟨sbuf, sbuf.length, false, none, sccl⟩ (.data b :: evs') =
      .done ⟨sbuf ++ b, sbuf.length + b.length, false, some 0, sccl⟩ false := by
  simp only [sendLoop, List.headD_cons, List.tail_cons, hbs]
  rw [if_pos hrb]
  simp only [Option.isSome_none, Bool.false_eq_true, false_or, or_self, if_false, hfind,
    List.length_append]
  rw [if_neg hte, if_neg hn1, if_pos h24]

/-- Data read in parse mode: the head completes with a Content-Length
header. -/
lemma sendLoopStep_data_parsecl (cap fuel : Nat) (sbuf b : Bytes) (sccl : Nat) (i : Nat)
    (evs' : List ReadEv)
    (hrb : sbuf.length < cap) (hbs : b.take (cap - sbuf.length) = b)
    (hfind : findInfixIdx emptyLineB (sbuf ++ b) = some i)
    (hte : ¬ headerValue (sbuf ++ b) (strBytes "Transfer-Encoding") = strBytes "chunked")
    (hn1 : ¬ (100 ≤ statusNum (sbuf ++ b) ∧ statusNum (sbuf ++ b) < 200))
    (hn24 : ¬ (statusNum (sbuf ++ b) = 204 ∨ statusNum (sbuf ++ b) = 304))
    (hL : headerValue (sbuf ++ b) (strBytes "Content-Length") ≠ [])
    (hmax : ¬ maxResponseSize ≤ sbuf.length + b.length) :
    sendLoop cap (fuel + 1) ⟨sbuf, sbuf.length, false, none, sccl⟩ (.data b :: evs') =
      (if atoiLoose (headerValue (sbuf ++ b) (strBytes "Content-Length")) <
            sccl + (bodyOf (sbuf ++ b)).length then
        .done ⟨sbuf ++ b, sbuf.length + b.length, false,
               some (atoiLoose (headerValue (sbuf ++ b) (strBytes "Content-Length"))),
               sccl + (bodyOf (sbuf ++ b)).length⟩ false
      else if sccl + (bodyOf (sbuf ++ b)).length =
            atoiLoose (headerValue (sbuf ++ b) (strBytes "Content-Length")) then
        .done ⟨sbuf ++ b, sbuf.length + b.length, false,
               some (atoiLoose (headerValue (sbuf ++ b) (strBytes "Content-Length"))),
               sccl + (bodyOf (sbuf ++ b)).length⟩ false
      else
        sendLoop cap fuel ⟨sbuf ++ b, sbuf.length + b.length, false,
               some (atoiLoose (headerValue (sbuf ++ b) (strBytes "Content-Length"))),
               sccl + (bodyOf (sbuf ++ b)).length⟩ evs') := by
  simp only [sendLoop, List.headD_cons, List.tail_cons, hbs]
  rw [if_pos hrb]
  simp only [Option.isSome_none, Bool.false_eq_true, false_or, or_self, if_false, hfind,
    List.length_append]
  rw [if_neg hte, if_neg hn1, if_neg hn24]
  simp only [if_pos hL, false_and, if_false, Option.isSome_some, not_false_iff, and_true,
    Option.get_some]
  rw [dif_pos (by simp)]
  simp only [Option.get_some, Bool.false_eq_true, if_false, if_neg hmax]

/-- Data read in parse mode: the head completes without Transfer-Encoding
or Content-Length. -/
lemma sendLoopStep_data_parsenocl (cap fuel : Nat) (sbuf b : Bytes) (sccl : Nat) (i : Nat)
    (evs' : List ReadEv)
    (hrb : sbuf.length < cap) (hbs : b.take (cap - sbuf.length) = b)
    (hfind : findInfixIdx emptyLineB (sbuf ++ b) = some i)
    (hte : ¬ headerValue (sbuf ++ b) (strBytes "Transfer-Encoding") = strBytes "chunked")
    (hn1 : ¬ (100 ≤ statusNum (sbuf ++ b) ∧ statusNum (sbuf ++ b) < 200))
    (hn24 : ¬ (statusNum (sbuf ++ b) = 204 ∨ statusNum (sbuf ++ b) = 304))
    (hL : headerValue (sbuf ++ b) (strBytes "Content-Length") = [])
    (hmax : ¬ maxResponseSize ≤ sbuf.length + b.length) :
    sendLoop cap (fuel + 1) ⟨sbuf, sbuf.length, false, none, sccl⟩ (.data b :: evs') =
      sendLoop cap fuel ⟨sbuf ++ b, sbuf.length + b.length, false, none,
        sccl + (bodyOf (sbuf ++ b)).length⟩ evs' := by
  simp only [sendLoop, List.headD_cons, List.tail_cons, hbs]
  rw [if_pos hrb]
  simp only [Option.isSome_none, Bool.false_eq_true, false_or, or_self, if_false, hfind,
    List.length_append]
  rw [if_neg hte, if_neg hn1, if_neg hn24]
  simp only [if_neg (not_not_intro hL), false_and, if_false, Option.isSome_none,
    Bool.false_eq_true]
  rw [dif_neg (by simp)]
  simp only [Bool.false_eq_true, if_false, if_neg hmax]

/-- Timed-out read while chunked framing is active: the loop breaks with the
buffer unchanged. -/
lemma sendLoopStep_timeout_chunked (cap fuel : Nat) (sbuf : Bytes) (scl : Option Nat)
    (sccl : Nat) (hrb : sbuf.length < cap) :
    sendLoop cap (fuel + 1) ⟨sbuf, sbuf.length, true, scl, sccl⟩ [] =
      .done ⟨sbuf, sbuf.length, true, scl, sccl⟩ true := by
  simp only [sendLoop, List.headD_nil, List.tail_nil, List.append_nil, List.length_nil,
    Nat.add_zero]
  rw [if_pos hrb]
  simp only [eq_self_iff_true, true_or, if_true, true_and]
  by_cases hsuf : hasSuffixB sbuf chunkedSuffix = true
  · simp only [if_pos hsuf]
  · simp only [if_neg hsuf]
    rw [dif_neg (by simp)]
    simp only [eq_self_iff_true, if_true, Bool.not_false]

/-- Timed-out read while a Content-Length is being tracked: the loop breaks
with the buffer unchanged. -/
lemma sendLoopStep_timeout_cl (cap fuel : Nat) (sbuf : Bytes) (v sccl : Nat)
    (hrb : sbuf.length < cap) :
    sendLoop cap (fuel + 1) ⟨sbuf, sbuf.length, false, some v, sccl⟩ [] =
      .done ⟨sbuf, sbuf.length, false, some v, sccl⟩ true := by
  simp only [sendLoop, List.headD_nil, List.tail_nil, List.append_nil, List.length_nil,
    Nat.add_zero]
  rw [if_pos hrb]
  simp only [Option.isSome_some, Bool.false_eq_true, false_or, if_true, false_and, if_false,
    not_false_iff, and_true, Option.get_some, eq_self_iff_true]
  rw [dif_pos (by simp)]
  simp only [Option.get_some, eq_self_iff_true, if_true, Bool.not_false]
  split_ifs <;> rfl

/-- Timed-out read in parse mode: the head is complete and declares chunked
transfer encoding; the loop breaks. -/
lemma sendLoopStep_timeout_te (cap fuel : Nat) (sbuf : Bytes) (sccl i : Nat)
    (hrb : sbuf.length < cap)
    (hfind : findInfixIdx emptyLineB sbuf = some i)
    (hte : headerValue sbuf (strBytes "Transfer-Encoding") = strBytes "chunked") :
    sendLoop cap (fuel + 1) ⟨sbuf, sbuf.length, false, none, sccl⟩ [] =
      .done ⟨sbuf, sbuf.length, true, none, sccl + (bodyOf sbuf).length⟩ true := by
  simp only [sendLoop, List.headD_nil, List.tail_nil, List.append_nil, List.length_nil,
    Nat.add_zero]
  rw [if_pos hrb]
  simp only [Option.isSome_none, Bool.false_eq_true, false_or, or_self, if_false, hfind]
  rw [if_pos hte]
  simp only [eq_self_iff_true, true_and]
  by_cases hsuf : hasSuffixB sbuf chunkedSuffix = true
  · simp only [if_pos hsuf]
  · simp only [if_neg hsuf]
    rw [dif_neg (by simp)]
    simp only [eq_self_iff_true, if_true, Bool.not_false]

/-- Timed-out read in parse mode: the head is complete with status 204/304;
the loop breaks. -/
lemma sendLoopStep_timeout_204 (cap fuel : Nat) (sbuf : Bytes) (sccl i : Nat)
    (hrb : sbuf.length < cap)
    (hfind : findInfixIdx emptyLineB sbuf = some i)
    (hte : ¬ headerValue sbuf (strBytes "Transfer-Encoding") = strBytes "chunked")
    (hn1 : ¬ (100 ≤ statusNum sbuf ∧ statusNum sbuf < 200))
    (h24 : statusNum sbuf = 204 ∨ statusNum sbuf = 304) :
    sendLoop cap (fuel + 1) ⟨sbuf, sbuf.length, false, none, sccl⟩ [] =
      .done ⟨sbuf, sbuf.length, false, some 0, sccl⟩ true := by
  simp only [sendLoop, List.headD_nil, List.tail_nil, List.append_nil, List.length_nil,
    Nat.add_zero]
  rw [if_pos hrb]
  simp only [Option.isSome_none, Bool.false_eq_true, false_or, or_self, if_false, hfind]
  rw [if_neg hte, if_neg hn1, if_pos h24]

/-- Timed-out read in parse mode: the head is complete with a
Content-Length header; the loop breaks. -/
lemma sendLoopStep_timeout_parsecl (cap fuel : Nat) (sbuf : Bytes) (sccl i : Nat)
    (hrb : sbuf.length < cap)
    (hfind : findInfixIdx emptyLineB sbuf = some i)
    (hte : ¬ headerValue sbuf (strBytes "Transfer-Encoding") = strBytes "chunked")
    (hn1 : ¬ (100 ≤ statusNum sbuf ∧ statusNum sbuf < 200))
    (hn24 : ¬ (statusNum sbuf = 204 ∨ statusNum sbuf = 304))
    (hL : headerValue sbuf (strBytes "Content-Length") ≠ []) :
    sendLoop cap (fuel + 1) ⟨sbuf, sbuf.length, false, none, sccl⟩ [] =
      .done ⟨sbuf, sbuf.length, false,
             some (atoiLoose (headerValue sbuf (strBytes "Content-Length"))),
             sccl + (bodyOf sbuf).length⟩ true := by
  simp only [sendLoop, List.headD_nil, List.tail_nil, List.append_nil, List.length_nil,
    Nat.add_zero]
  rw [if_pos hrb]
  simp only [Option.isSome_none, Bool.false_eq_true, false_or, or_self, if_false, hfind]
  rw [if_neg hte, if_neg hn1, if_neg hn24]
  simp only [if_pos hL, false_and, if_false, Option.isSome_some, not_false_iff, and_true,
    Option.get_some]
  rw [dif_pos (by simp)]
  simp only [Option.get_some, eq_self_iff_true, if_true, Bool.not_false]
  split_ifs <;> rfl

/-- Timed-out read in parse mode: the head is complete with neither
Transfer-Encoding nor Content-Length; the loop breaks. -/
lemma sendLoopStep_timeout_parsenocl (cap fuel : Nat) (sbuf : Bytes) (sccl i : Nat)
    (hrb : sbuf.length < cap)
    (hfind : findInfixIdx emptyLineB sbuf = some i)
    (hte : ¬ headerValue sbuf (strBytes "Transfer-Encoding") = strBytes "chunked")
    (hn1 : ¬ (100 ≤ statusNum sbuf ∧ statusNum sbuf < 200))
    (hn24 : ¬ (statusNum sbuf = 204 ∨ statusNum sbuf = 304))
    (hL : headerValue sbuf (strBytes "Content-Length") = []) :
    sendLoop cap (fuel + 1) ⟨sbuf, sbuf.length, false, none, sccl⟩ [] =
      .done ⟨sbuf, sbuf.length, false, none, sccl + (bodyOf sbuf).length⟩ true := by
  simp only [sendLoop, List.headD_nil, List.tail_nil, List.append_nil, List.length_nil,
    Nat.add_zero]
  rw [if_pos hrb]
  simp only [Option.isSome_none, Bool.false_eq_true, false_or, or_self, if_false, hfind]
  rw [if_neg hte, if_neg hn1, if_neg hn24]
  simp only [if_neg (not_not_intro hL), false_and, if_false, Option.isSome_none,
    Bool.false_eq_true]
  rw [dif_neg (by simp)]
  simp only [eq_self_iff_true, if_true, Bool.not_false]

/-- The read loop of `send` on a data stream consisting of pending `1xx`
heads followed by a final response: every `1xx` head is deleted, and the
loop always breaks in a state whose buffer is a strict status-line-containing
prefix of the final response (never a `1xx` head). -/
lemma sendLoop_heads_run (cap : Nat) (final : Bytes) (hfin : IsFinalResp final)
    (hcapmax : cap ≤ maxResponseSize) :
    ∀ (fuel : Nat) (es hs : List Bytes) (st : SendLoopState),
      (∀ h ∈ hs, Is1xxHead h) →
      st.buf ++ es.flatten = hs.flatten ++ final →
      st.readBytes = st.buf.length →
      hs.flatten.length + final.length < cap →
      (hs ≠ [] → st.chunked = false ∧ st.contentLength = none) →
      (hs = [] → (st.chunked = true → 12 < st.buf.length) ∧
                 (st.contentLength.isSome = true → 12 < st.buf.length)) →
      es.length + hs.length < fuel →
      ∃ st' e, sendLoop cap fuel st (es.map ReadEv.data) = .done st' e ∧
        ∃ k, 12 < k ∧ k ≤ final.length ∧ st'.buf = final.take k ∧
          st'.readBytes = k := by
  intro fuel
  induction fuel with
  | zero => intro es hs st _ _ _ _ _ _ hfuel; omega
  | succ fuel ih =>
    rintro es hs ⟨sbuf, srb, sch, scl, sccl⟩ hall hcat hrb hcap hph hpf hfuel
    dsimp only at hcat hrb hph hpf
    subst hrb
    have hlen : sbuf.length + es.flatten.length = hs.flatten.length + final.length := by
      have h := congrArg List.length hcat
      simpa using h
    have hrlt : sbuf.length < cap := by omega
    cases es with
    | cons b es' =>
      simp only [List.flatten_cons] at hcat hlen
      simp only [List.length_append] at hlen
      have hble : b.length ≤ cap - sbuf.length := by omega
      have hbs : b.take (cap - sbuf.length) = b := List.take_of_length_le (by omega)
      have hmaxb : ¬ maxResponseSize ≤ sbuf.length + b.length := by
        simp only [maxResponseSize] at hcapmax ⊢
        omega
      cases hs with
      | cons h0 hs' =>
        obtain ⟨hch, hcl⟩ := hph (by simp)
        subst hch; subst hcl
        obtain ⟨h0len, h0find, h0s1, h0s2, h0te⟩ := hall h0 (by simp)
        simp only [List.flatten_cons, List.length_append] at hcat hlen hcap
        have hkey : (sbuf ++ b) ++ es'.flatten = h0 ++ (hs'.flatten ++ final) := by
          rw [List.append_assoc, hcat, List.append_assoc]
        by_cases hsplit : h0.length ≤ sbuf.length + b.length
        · obtain ⟨u, hu1, hu2⟩ := append_eq_split _ _ _ _ hkey
            (by simp only [List.length_append]; omega)
          have hstep := sendLoopStep_data_delete cap fuel h0 u b sbuf sccl
            (List.map ReadEv.data es') hrlt hbs hu1 h0len h0find h0te h0s1 h0s2
          obtain ⟨st', e, hrun, hks⟩ := ih es' hs' ⟨u, u.length, false, none, sccl⟩
            (fun h hm => hall h (List.mem_cons_of_mem _ hm))
            (by dsimp only; exact hu2.symm) rfl
            (by omega)
            (fun _ => ⟨rfl, rfl⟩)
            (fun _ => ⟨fun h => absurd h (by simp), fun h => absurd h (by simp)⟩)
            (by simp only [List.length_cons] at hfuel ⊢; omega)
          exact ⟨st', e, hstep.trans hrun, hks⟩
        · push_neg at hsplit
          obtain ⟨u, hu1, hu2⟩ := append_eq_split _ _ _ _ hkey.symm
            (by simp only [List.length_append]; omega)
          have hfindn : findInfixIdx emptyLineB (sbuf ++ b) = none := by
            have hb : sbuf ++ b = h0.take (sbuf ++ b).length := by
              rw [hu1, List.take_left]
            rw [hb]
            refine findInfix_take_none _ _ _ _ (by decide) h0find ?_
            have hl4 : emptyLineB.length = 4 := by decide
            rw [hl4]
            simp only [List.length_append]
            omega
          have hstep := sendLoopStep_data_noline cap fuel sbuf b sccl
            (List.map ReadEv.data es') hrlt hbs hfindn hmaxb
          obtain ⟨st', e, hrun, hks⟩ := ih es' (h0 :: hs')
            ⟨sbuf ++ b, sbuf.length + b.length, false, none, sccl⟩ hall
            (by
              dsimp only
              simp only [List.flatten_cons]
              rw [hkey, List.append_assoc])
            (by simp)
            (by simp only [List.flatten_cons, List.length_append]; omega)
            (fun _ => ⟨rfl, rfl⟩)
            (fun habs => absurd habs (by simp))
            (by simp only [List.length_cons] at hfuel ⊢; omega)
          exact ⟨st', e, hstep.trans hrun, hks⟩
      | nil =>
        obtain ⟨hchB, hclB⟩ := hpf rfl
        simp only [List.flatten_nil, List.nil_append, List.length_nil] at hcat hlen hcap
        have hkey : (sbuf ++ b) ++ es'.flatten = final := by
          rw [List.append_assoc]; exact hcat
        have hpre : sbuf ++ b = final.take (sbuf.length + b.length) := by
          rw [← hkey]
          exact (List.take_left' (by simp)).symm
        have hrble : sbuf.length + b.length ≤ final.length := by omega
        cases sch with
        | true =>
          have h12 : 12 < sbuf.length := hchB rfl
          have hstep := sendLoopStep_data_chunked cap fuel sbuf b scl sccl
            (List.map ReadEv.data es') hrlt hbs hmaxb
          by_cases hsuf : hasSuffixB (sbuf ++ b) chunkedSuffix = true
          · rw [if_pos hsuf] at hstep
            exact ⟨_, _, hstep, sbuf.length + b.length, by omega, hrble, hpre, rfl⟩
          · rw [if_neg hsuf] at hstep
            obtain ⟨st', e, hrun, hks⟩ := ih es' []
              ⟨sbuf ++ b, sbuf.length + b.length, true, scl, sccl + b.length⟩
              (by simp)
              (by dsimp only; rw [hkey]; simp)
              (by simp)
              (by simpa using hcap)
              (fun hne => absurd rfl hne)
              (fun _ => ⟨fun _ => by simp only [List.length_append]; omega,
                         fun _ => by simp only [List.length_append]; omega⟩)
              (by simp only [List.length_cons, List.length_nil] at hfuel ⊢; omega)
            exact ⟨st', e, hstep.trans hrun, hks⟩
        | false =>
          cases scl with
          | some v =>
            have h12 : 12 < sbuf.length := hclB rfl
            have hstep := sendLoopStep_data_cl cap fuel sbuf b v sccl
              (List.map ReadEv.data es') hrlt hbs hmaxb
            by_cases hc1 : v < sccl + b.length
            · rw [if_pos hc1] at hstep
              exact ⟨_, _, hstep, sbuf.length + b.length, by omega, hrble, hpre, rfl⟩
            · rw [if_neg hc1] at hstep
              by_cases hc2 : sccl + b.length = v
              · rw [if_pos hc2] at hstep
                exact ⟨_, _, hstep, sbuf.length + b.length, by omega, hrble, hpre, rfl⟩
              · rw [if_neg hc2] at hstep
                obtain ⟨st', e, hrun, hks⟩ := ih es' []
                  ⟨sbuf ++ b, sbuf.length + b.length, false, some v, sccl + b.length⟩
                  (by simp)
                  (by dsimp only; rw [hkey]; simp)
                  (by simp)
                  (by simpa using hcap)
                  (fun hne => absurd rfl hne)
                  (fun _ => ⟨fun h => absurd h (by simp),
                             fun _ => by simp only [List.length_append]; omega⟩)
                  (by simp only [List.length_cons, List.length_nil] at hfuel ⊢; omega)
                exact ⟨st', e, hstep.trans hrun, hks⟩
          | none =>
            cases hfind : findInfixIdx emptyLineB (sbuf ++ b) with
            | none =>
              have hstep := sendLoopStep_data_noline cap fuel sbuf b sccl
                (List.map ReadEv.data es') hrlt hbs hfind hmaxb
              obtain ⟨st', e, hrun, hks⟩ := ih es' []
                ⟨sbuf ++ b, sbuf.length + b.length, false, none, sccl⟩
                (by simp)
                (by dsimp only; rw [hkey]; simp)
                (by simp)
                (by simpa using hcap)
                (fun hne => absurd rfl hne)
                (fun _ => ⟨fun h => absurd h (by simp), fun h => absurd h (by simp)⟩)
                (by simp only [List.length_cons, List.length_nil] at hfuel ⊢; omega)
              exact ⟨st', e, hstep.trans hrun, hks⟩
            | some i =>
              have hfind' : findInfixIdx emptyLineB
                  (final.take (sbuf.length + b.length)) = some i := by
                rw [← hpre]; exact hfind
              obtain ⟨hi12, hi4⟩ := finalResp_take_infix final hfin _ i hfind'
              have h16 : 16 ≤ sbuf.length + b.length := by omega
              have hstat : statusNum (sbuf ++ b) = statusNum final := by
                rw [hpre]; unfold statusNum
                rw [statusBytes_take _ _ (by omega)]
              have hn1 : ¬ (100 ≤ statusNum (sbuf ++ b) ∧ statusNum (sbuf ++ b) < 200) := by
                rw [hstat]; exact hfin.2.2.2
              by_cases hte : headerValue (sbuf ++ b) (strBytes "Transfer-Encoding") =
                  strBytes "chunked"
              · have hstep := sendLoopStep_data_te cap fuel sbuf b sccl i
                  (List.map ReadEv.data es') hrlt hbs hfind hte hmaxb
                by_cases hsuf : hasSuffixB (sbuf ++ b) chunkedSuffix = true
                · rw [if_pos hsuf] at hstep
                  exact ⟨_, _, hstep, sbuf.length + b.length, by omega, hrble, hpre, rfl⟩
                · rw [if_neg hsuf] at hstep
                  obtain ⟨st', e, hrun, hks⟩ := ih es' []
                    ⟨sbuf ++ b, sbuf.length + b.length, true, none,
                     sccl + (bodyOf (sbuf ++ b)).length⟩
                    (by simp)
                    (by dsimp only; rw [hkey]; simp)
                    (by simp)
                    (by simpa using hcap)
                    (fun hne => absurd rfl hne)
                    (fun _ => ⟨fun _ => by simp only [List.length_append]; omega,
                               fun h => absurd h (by simp)⟩)
                    (by simp only [List.length_cons, List.length_nil] at hfuel ⊢; omega)
                  exact ⟨st', e, hstep.trans hrun, hks⟩
              · by_cases h24 : statusNum (sbuf ++ b) = 204 ∨ statusNum (sbuf ++ b) = 304
                · have hstep := sendLoopStep_data_204 cap fuel sbuf b sccl i
                    (List.map ReadEv.data es') hrlt hbs hfind hte hn1 h24
                  exact ⟨_, _, hstep, sbuf.length + b.length, by omega, hrble, hpre, rfl⟩
                · by_cases hLe : headerValue (sbuf ++ b) (strBytes "Content-Length") = []
                  · have hstep := sendLoopStep_data_parsenocl cap fuel sbuf b sccl i
                      (List.map ReadEv.data es') hrlt hbs hfind hte hn1 h24 hLe hmaxb
                    obtain ⟨st', e, hrun, hks⟩ := ih es' []
                      ⟨sbuf ++ b, sbuf.length + b.length, false, none,
                       sccl + (bodyOf (sbuf ++ b)).length⟩
                      (by simp)
                      (by dsimp only; rw [hkey]; simp)
                      (by simp)
                      (by simpa using hcap)
                      (fun hne => absurd rfl hne)
                      (fun _ => ⟨fun h => absurd h (by simp), fun h => absurd h (by simp)⟩)
                      (by simp only [List.length_cons, List.length_nil] at hfuel ⊢; omega)
                    exact ⟨st', e, hstep.trans hrun, hks⟩
                  · have hstep := sendLoopStep_data_parsecl cap fuel sbuf b sccl i
                      (List.map ReadEv.data es') hrlt hbs hfind hte hn1 h24 hLe hmaxb
                    by_cases hc1 : atoiLoose (headerValue (sbuf ++ b)
                        (strBytes "Content-Length")) < sccl + (bodyOf (sbuf ++ b)).length
                    · rw [if_pos hc1] at hstep
                      exact ⟨_, _, hstep, sbuf.length + b.length, by omega, hrble, hpre, rfl⟩
                    · rw [if_neg hc1] at hstep
                      by_cases hc2 : sccl + (bodyOf (sbuf ++ b)).length =
                          atoiLoose (headerValue (sbuf ++ b) (strBytes "Content-Length"))
                      · rw [if_pos hc2] at hstep
                        exact ⟨_, _, hstep, sbuf.length + b.length, by omega, hrble, hpre, rfl⟩
                      · rw [if_neg hc2] at hstep
                        obtain ⟨st', e, hrun, hks⟩ := ih es' []
                          ⟨sbuf ++ b, sbuf.length + b.length, false,
                           some (atoiLoose (headerValue (sbuf ++ b)
                             (strBytes "Content-Length"))),
                           sccl + (bodyOf (sbuf ++ b)).length⟩
                          (by simp)
                          (by dsimp only; rw [hkey]; simp)
                          (by simp)
                          (by simpa using hcap)
                          (fun hne => absurd rfl hne)
                          (fun _ => ⟨fun h => absurd h (by simp),
                                     fun _ => by simp only [List.length_append]; omega⟩)
                          (by simp only [List.length_cons, List.length_nil] at hfuel ⊢; omega)
                        exact ⟨st', e, hstep.trans hrun, hks⟩
    | nil =>
      simp only [List.flatten_nil, List.append_nil, List.length_nil] at hcat hlen
      cases hs with
      | cons h0 hs' =>
        obtain ⟨hch, hcl⟩ := hph (by simp)
        subst hch; subst hcl
        obtain ⟨h0len, h0find, h0s1, h0s2, h0te⟩ := hall h0 (by simp)
        simp only [List.flatten_cons, List.length_append] at hcat hlen hcap
        have hsp : sbuf = h0 ++ (hs'.flatten ++ final) := by
          rw [hcat, List.append_assoc]
        have hstep := sendLoopStep_timeout_delete cap fuel h0 (hs'.flatten ++ final)
          sbuf sccl hrlt hsp h0len h0find h0te h0s1 h0s2
        obtain ⟨st', e, hrun, hks⟩ := ih [] hs'
          ⟨hs'.flatten ++ final, (hs'.flatten ++ final).length, false, none, sccl⟩
          (fun h hm => hall h (List.mem_cons_of_mem _ hm))
          (by simp only [List.flatten_nil, List.append_nil]) rfl
          (by omega)
          (fun _ => ⟨rfl, rfl⟩)
          (fun _ => ⟨fun h => absurd h (by simp), fun h => absurd h (by simp)⟩)
          (by simp only [List.length_cons, List.length_nil] at hfuel ⊢; omega)
        exact ⟨st', e, hstep.trans hrun, hks⟩
      | nil =>
        obtain ⟨hchB, hclB⟩ := hpf rfl
        simp only [List.flatten_nil, List.nil_append, List.length_nil] at hcat hlen hcap
        subst hcat
        have h16 : 16 ≤ sbuf.length := IsFinalResp.sixteen_le sbuf hfin
        cases sch with
        | true =>
          have hstep := sendLoopStep_timeout_chunked cap fuel sbuf scl sccl hrlt
          exact ⟨_, _, hstep, sbuf.length, by omega, le_refl _,
            (List.take_length sbuf).symm, rfl⟩
        | false =>
          cases scl with
          | some v =>
            have hstep := sendLoopStep_timeout_cl cap fuel sbuf v sccl hrlt
            exact ⟨_, _, hstep, sbuf.length, by omega, le_refl _,
              (List.take_length sbuf).symm, rfl⟩
          | none =>
            obtain ⟨i, hfind⟩ := Option.isSome_iff_exists.mp hfin.2.2.1
            have hn1 := hfin.2.2.2
            by_cases hte : headerValue sbuf (strBytes "Transfer-Encoding") =
                strBytes "chunked"
            · have hstep := sendLoopStep_timeout_te cap fuel sbuf sccl i hrlt hfind hte
              exact ⟨_, _, hstep, sbuf.length, by omega, le_refl _,
                (List.take_length sbuf).symm, rfl⟩
            · by_cases h24 : statusNum sbuf = 204 ∨ statusNum sbuf = 304
              · have hstep := sendLoopStep_timeout_204 cap fuel sbuf sccl i hrlt
                  hfind hte hn1 h24
                exact ⟨_, _, hstep, sbuf.length, by omega, le_refl _,
                  (List.take_length sbuf).symm, rfl⟩
              · by_cases hLe : headerValue sbuf (strBytes "Content-Length") = []
                · have hstep := sendLoopStep_timeout_parsenocl cap fuel sbuf sccl i hrlt
                    hfind hte hn1 h24 hLe
                  exact ⟨_, _, hstep, sbuf.length, by omega, le_refl _,
                    (List.take_length sbuf).symm, rfl⟩
                · have hstep := sendLoopStep_timeout_parsecl cap fuel sbuf sccl i hrlt
                    hfind hte hn1 h24 hLe
                  exact ⟨_, _, hstep, sbuf.length, by omega, le_refl _,
                    (List.take_length sbuf).symm, rfl⟩

lemma sendLoopFuel_data (es : List Bytes) : ∀ env : SendEnv,
    env.reads = es.map ReadEv.data →
    sendLoopFuel env = es.length + es.flatten.length + 2 := by
  induction es with
  | nil => intro env h; rw [sendLoopFuel, h]; rfl
  | cons b t ih =>
    intro env h
    have hih := ih ⟨env.connAlive, env.proxyScheme, env.dialFail, env.writeFail,
      t.map ReadEv.data, env.now⟩ rfl
    rw [sendLoopFuel, h]
    rw [sendLoopFuel] at hih
    dsimp only at hih ⊢
    simp only [List.length_map, List.map_cons, List.sum_cons, List.flatten_cons,
      List.length_append, List.length_cons] at hih ⊢
    omega

/-- C3: for every response stream in which the origin sends one or more
complete `1xx` heads followed by a well-formed final non-`1xx` response
(delivered over any sequence of socket reads, with the redirect option off
and the stream fitting the response buffer), the replay client's `send`
discards each `1xx` head up to and including its empty line and keeps
reading; the bytes it returns are a prefix of the final response extending
past its status line — they begin with the final response's real status
line and its non-`1xx` status code, never with a `1xx` head. -/
theorem send_1xx_heads_discarded
    (cap rdc : Nat) (heads : List Bytes) (final : Bytes) (es : List Bytes)
    (env : SendEnv)
    (hh : heads ≠ []) (hall : ∀ h ∈ heads, Is1xxHead h)
    (hfin : IsFinalResp final)
    (hstream : es.flatten = heads.flatten ++ final)
    (hcap : heads.flatten.length + final.length < cap)
    (hcapmax : cap ≤ maxResponseSize)
    (halive : env.connAlive = true) (hwr : env.writeFail = false)
    (hreads : env.reads = es.map ReadEv.data) :
    ∃ k, 12 < k ∧
      sendModel cap 0 rdc env = .ok (final.take k) ∧
      (final.take k).take 12 = final.take 12 ∧
      statusNum (final.take k) = statusNum final ∧
      ¬ (100 ≤ statusNum (final.take k) ∧ statusNum (final.take k) < 200) := by
  have hfuel : es.length + heads.length < sendLoopFuel env := by
    rw [sendLoopFuel_data es env hreads]
    have h1 : heads.length ≤ heads.flatten.length :=
      flatten_length_count heads (fun x hx => by
        have h12 := (hall x hx).1; omega)
    have h2 : es.flatten.length = heads.flatten.length + final.length := by
      rw [hstream]; simp
    omega
  obtain ⟨st', e, hrun, k, hk12, hkle, hbuf, hrbk⟩ :=
    sendLoop_heads_run cap final hfin hcapmax (sendLoopFuel env) es heads
      ⟨[], 0, false, none, 0⟩ hall (by simpa using hstream) rfl hcap
      (fun _ => ⟨rfl, rfl⟩) (fun hfalse => absurd hfalse hh) hfuel
  have hsn : statusNum (final.take k) = statusNum final := by
    unfold statusNum
    rw [statusBytes_take _ _ (by omega)]
  refine ⟨k, hk12, ?_, ?_, hsn, by rw [hsn]; exact hfin.2.2.2⟩
  · simp only [sendModel, sendInner, hreads]
    rw [if_pos halive, if_neg (by simp [hwr]), hrun]
    simp only [sendPostLoop]
    rw [if_neg (by rintro ⟨-, h0⟩; rw [hrbk] at h0; omega)]
    rw [if_neg (by
      rintro (h4 | hH)
      · rw [hrbk] at h4; omega
      · apply hH
        rw [hbuf, List.take_take]
        have hm : 4 ⊓ k = 4 := inf_eq_left.mpr (by omega)
        rw [hm]
        exact hfin.1)]
    rw [if_neg (by rintro ⟨h0, -⟩; omega)]
    rw [hrbk, hbuf]
    have hmin : min k cap = k := min_eq_left (by omega)
    rw [hmin]
    congr 1
    exact List.take_of_length_le (by simp only [List.length_take]; omega)
  · rw [List.take_take]
    congr 1
    exact inf_eq_left.mpr (by omega)

theorem send_1xx_heads_discarded_witness :
    (∀ h ∈ [strBytes "HTTP/1.1 100 Continue\r\n\r\n"], Is1xxHead h) ∧
    IsFinalResp (strBytes "HTTP/1.1 200 OK\r\nContent-Length: 1\r\n\r\na") ∧
    (∃ k, 12 < k ∧
      sendModel 1024 0 0 ⟨true, none, none, false,
        [strBytes "HTTP/1.1 100 Conti",
         strBytes "nue\r\n\r\nHTTP/1.1 200 OK\r\nContent-Length: 1\r\n\r\na"].map
           ReadEv.data, []⟩ =
        .ok ((strBytes "HTTP/1.1 200 OK\r\nContent-Length: 1\r\n\r\na").take k) ∧
      ((strBytes "HTTP/1.1 200 OK\r\nContent-Length: 1\r\n\r\na").take k).take 12 =
        (strBytes "HTTP/1.1 200 OK\r\nContent-Length: 1\r\n\r\na").take 12 ∧
      statusNum ((strBytes "HTTP/1.1 200 OK\r\nContent-Length: 1\r\n\r\na").take k) =
        statusNum (strBytes "HTTP/1.1 200 OK\r\nContent-Length: 1\r\n\r\na") ∧
      ¬ (100 ≤ statusNum ((strBytes "HTTP/1.1 200 OK\r\nContent-Length: 1\r\n\r\na").take k) ∧
         statusNum ((strBytes "HTTP/1.1 200 OK\r\nContent-Length: 1\r\n\r\na").take k) < 200)) :=
  ⟨by decide, by decide,
   send_1xx_heads_discarded 1024 0
     [strBytes "HTTP/1.1 100 Continue\r\n\r\n"]
     (strBytes "HTTP/1.1 200 OK\r\nContent-Length: 1\r\n\r\na")
     [strBytes "HTTP/1.1 100 Conti",
      strBytes "nue\r\n\r\nHTTP/1.1 200 OK\r\nContent-Length: 1\r\n\r\na"]
     ⟨true, none, none, false,
      [strBytes "HTTP/1.1 100 Conti",
       strBytes "nue\r\n\r\nHTTP/1.1 200 OK\r\nContent-Length: 1\r\n\r\na"].map
        ReadEv.data, []⟩
     (by decide) (by decide) (by decide) (by decide) (by decide) (by decide)
     rfl rfl rfl⟩
